import Mathlib

/-!
Verification of the imageLabeler repository against its specification.

The development shallowly embeds the TypeScript source: strings are Lean
`String`s (operated on as `List Char`), JavaScript regular-expression
operations are implemented as character-list scanners that reproduce the
semantics of the concrete patterns used by the source, external
collaborators (zlib inflate, Buffer UTF-8 decoding, `JSON.parse`, the
remote HTTP index) are injected as function parameters, and the stateful
components (worker pool, reconciliation loop, per-item task) are embedded
as explicit state-transition functions over action traces.
-/

/- ===== Character classes used by the JS regexes (ASCII range) ===== -/

/-- JS `\s` restricted to the ASCII whitespace characters (space, tab,
line feed, vertical tab, form feed, carriage return).  All inputs in this
development are ASCII. -/
def isWsJS (c : Char) : Bool :=
  c = ' ' || c = '\t' || c = '\n' || c = '\r' || c = '\x0b' || c = '\x0c'

/-- JS `\d` / `[0-9]`. -/
def isDigitCh (c : Char) : Bool :=
  '0' ≤ c && c ≤ '9'

/-- The character class `[0-9.]` used by the weight regexes. -/
def isDigitDot (c : Char) : Bool :=
  isDigitCh c || c = '.'

/-- JS line-terminator characters matched by `[\r\n]` (ASCII range). -/
def isCrlf (c : Char) : Bool :=
  c = '\r' || c = '\n'

/-- ASCII lower-casing, the effect of JS `toLowerCase` on ASCII input. -/
def lowerChar (c : Char) : Char :=
  if 65 ≤ c.toNat ∧ c.toNat ≤ 90 then Char.ofNat (c.toNat + 32) else c

/-- Lower-case every character of a list. -/
def lowerList (l : List Char) : List Char :=
  l.map lowerChar

/-- JS `String.prototype.toLowerCase` (ASCII model). -/
def lowerStr (s : String) : String :=
  ⟨lowerList s.data⟩

/-- JS `String.prototype.trim` on a character list: strip whitespace from
both ends. -/
def trimList (l : List Char) : List Char :=
  ((l.dropWhile isWsJS).reverse.dropWhile isWsJS).reverse

/-- JS `String.prototype.trim`. -/
def trimStr (s : String) : String :=
  ⟨trimList s.data⟩

/-- Case-insensitive character equality (ASCII). -/
def ciEq (c d : Char) : Bool :=
  lowerChar c = lowerChar d

/-- Case-insensitive "the pattern `pat` is a prefix of `l`"; returns the
remainder after the pattern on success. -/
def ciStrip : List Char → List Char → Option (List Char)
  | [], l => some l
  | _ :: _, [] => none
  | p :: ps, c :: cs => if ciEq p c then ciStrip ps cs else none

/-- Case-insensitive substring test (used to state side conditions). -/
def ciSubstr (pat : List Char) (l : List Char) : Bool :=
  l.tails.any (fun t => (ciStrip pat t).isSome)

/- ===== removeWeights (src/PngInfo.ts lines 327-334) =====

`removeWeights` performs two global regex replacements:
first `\(([^()]+?):[0-9.]+\)` -> `($1)`, then `(\S+):[0-9.]+` -> `$1`.
Each is embedded as a left-to-right scanner with the backtracking
behaviour of the concrete pattern. -/

/-- Attempt to match `:[0-9.]+\)` at the head of `l`; on success return
the remainder after the closing parenthesis. -/
def parenWeightTail (l : List Char) : Option (List Char) :=
  match l with
  | c :: rest =>
    if c = ':' then
      let ds := rest.takeWhile isDigitDot
      if ds.isEmpty then none
      else
        match rest.drop ds.length with
        | d :: rest2 => if d = ')' then some rest2 else none
        | [] => none
    else none
  | [] => none

/-- The lazy group `[^()]+?` of the parenthesized-weight regex: accumulate
non-parenthesis characters, testing the `:[0-9.]+\)` continuation at each
(shortest-first) boundary.  Returns the group and the remainder after the
match. -/
def parenGroup : List Char → List Char → Option (List Char × List Char)
  | _, [] => none
  | acc, c :: cs =>
    if c = '(' || c = ')' then none
    else
      match parenWeightTail cs with
      | some rest => some ((c :: acc).reverse, rest)
      | none => parenGroup (c :: acc) cs

/-- Match the full pattern `\(([^()]+?):[0-9.]+\)` at the head of `l`. -/
def matchParenWeight (l : List Char) : Option (List Char × List Char) :=
  match l with
  | c :: rest => if c = '(' then parenGroup [] rest else none
  | [] => none

/-- Global replacement of `\(([^()]+?):[0-9.]+\)` by `($1)`, fuelled by
the input length (each match consumes at least one character). -/
def parenPassAux : Nat → List Char → List Char
  | 0, l => l
  | _ + 1, [] => []
  | fuel + 1, c :: cs =>
    match matchParenWeight (c :: cs) with
    | some (g, rest) => '(' :: g ++ ')' :: parenPassAux fuel rest
    | none => c :: parenPassAux fuel cs

def parenPass (l : List Char) : List Char :=
  parenPassAux l.length l

/-- For the bare-weight regex `(\S+):[0-9.]+`: given the maximal non-space
run at the match position, find the largest index `k ≥ 1` such that
`run[k] = ':'` and `run[k+1]` is in `[0-9.]` (the greedy `\S+` backtracks
from the right until the `:[0-9.]+` continuation fits). -/
def bareSplitIdx : List Char → Nat → Option Nat
  | [], _ => none
  | c :: rest, i =>
    match bareSplitIdx rest (i + 1) with
    | some k => some k
    | none =>
      if c = ':' && 1 ≤ i && (rest.head?.elim false isDigitDot) then some i
      else none

/-- Match `(\S+):[0-9.]+` at the head of `l`: on success return the
captured group and the remainder after the matched weight. -/
def matchBareWeight (l : List Char) : Option (List Char × List Char) :=
  let run := l.takeWhile (fun c => !isWsJS c)
  match bareSplitIdx run 0 with
  | none => none
  | some k =>
    let digits := (l.drop (k + 1)).takeWhile isDigitDot
    some (l.take k, l.drop (k + 1 + digits.length))

/-- Global replacement of `(\S+):[0-9.]+` by `$1`, fuelled by the input
length. -/
def barePassAux : Nat → List Char → List Char
  | 0, l => l
  | _ + 1, [] => []
  | fuel + 1, c :: cs =>
    match matchBareWeight (c :: cs) with
    | some (g, rest) => g ++ barePassAux fuel rest
    | none => c :: barePassAux fuel cs

def barePass (l : List Char) : List Char :=
  barePassAux l.length l

/-- The function `removeWeights` (src/PngInfo.ts): strip `(token:weight)` down to
`(token)` and then bare `token:number` down to `token`. -/
def removeWeights (s : String) : String :=
  ⟨barePass (parenPass s.data)⟩

/- ===== cleanToken (src/utils/promptLabels.ts lines 28-38) ===== -/

/-- Match `:\d+(\.\d+)?` at the head of `l`: a colon, one or more digits,
optionally a dot with one or more digits.  Returns the remainder. -/
def matchColonNum (l : List Char) : Option (List Char) :=
  match l with
  | ':' :: rest =>
    let ds := rest.takeWhile isDigitCh
    if ds.isEmpty then none
    else
      let rest2 := rest.drop ds.length
      match rest2 with
      | '.' :: rest3 =>
        let ds2 := rest3.takeWhile isDigitCh
        if ds2.isEmpty then some rest2 else some (rest3.drop ds2.length)
      | _ => some rest2
  | _ => none

/-- Global removal of `:\d+(\.\d+)?` (first replace of `cleanToken`). -/
def colonNumPassAux : Nat → List Char → List Char
  | 0, l => l
  | _ + 1, [] => []
  | fuel + 1, c :: cs =>
    match matchColonNum (c :: cs) with
    | some rest => colonNumPassAux fuel rest
    | none => c :: colonNumPassAux fuel cs

def colonNumPass (l : List Char) : List Char :=
  colonNumPassAux l.length l

/-- Match `\(.*?:.*?\)` at the head of `l` (JS `.` excludes line
terminators but matches parentheses): an opening parenthesis, the
characters up to the first colon, then the characters up to the first
closing parenthesis, with no line break anywhere inside.  Returns the
remainder after the closing parenthesis. -/
def matchParenColon (l : List Char) : Option (List Char) :=
  match l with
  | '(' :: rest =>
    let g1 := rest.takeWhile (fun c => !isCrlf c && c ≠ ':')
    match rest.drop g1.length with
    | ':' :: rest2 =>
      let g2 := rest2.takeWhile (fun c => !isCrlf c && c ≠ ')')
      match rest2.drop g2.length with
      | ')' :: rest3 => some rest3
      | _ => none
    | _ => none
  | _ => none

/-- Global removal of `\(.*?:.*?\)` (third replace of `cleanToken`). -/
def parenColonPassAux : Nat → List Char → List Char
  | 0, l => l
  | _ + 1, [] => []
  | fuel + 1, c :: cs =>
    match matchParenColon (c :: cs) with
    | some rest => parenColonPassAux fuel rest
    | none => c :: parenColonPassAux fuel cs

def parenColonPass (l : List Char) : List Char :=
  parenColonPassAux l.length l

/-- The bracket class `[()[\]{}]` of `cleanToken`'s fourth replace. -/
def isBracketCh (c : Char) : Bool :=
  c = '(' || c = ')' || c = '[' || c = ']' || c = Char.ofNat 123 || c = Char.ofNat 125

/-- Global replacement of `\s+` by a single space. -/
def collapseWsAux : Nat → List Char → List Char
  | 0, l => l
  | _ + 1, [] => []
  | fuel + 1, c :: cs =>
    if isWsJS c then
      ' ' :: collapseWsAux fuel ((c :: cs).dropWhile isWsJS)
    else
      c :: collapseWsAux fuel cs

def collapseWs (l : List Char) : List Char :=
  collapseWsAux l.length l

/-- The function `cleanToken` (src/utils/promptLabels.ts): trim, strip `:number`
weights, remove periods, drop `(..:..)` groups, drop bracket characters,
collapse whitespace, lower-case, trim. -/
def cleanToken (token : String) : String :=
  let l0 := trimList token.data
  let l1 := colonNumPass l0
  let l2 := l1.filter (fun c => c ≠ '.')
  let l3 := parenColonPass l2
  let l4 := l3.filter (fun c => !isBracketCh c)
  let l5 := collapseWs l4
  let l6 := lowerList l5
  ⟨trimList l6⟩

/- ===== parsePositivePromptLabels (src/utils/promptLabels.ts 10-16) ===== -/

/-- JS `String.prototype.split` with a single-character separator. -/
def splitChAux (sep : Char) : List Char → List Char → List (List Char)
  | [], acc => [acc.reverse]
  | c :: cs, acc =>
    if c = sep then acc.reverse :: splitChAux sep cs []
    else splitChAux sep cs (c :: acc)

def splitCh (sep : Char) (s : String) : List String :=
  (splitChAux sep s.data []).map List.asString

/-- The function `parsePositivePromptLabels` (src/utils/promptLabels.ts): split on
commas, clean each token, split the results on the `|` alternation
delimiter, and drop empties. -/
def parsePositivePromptLabels (positivePrompt : String) : List String :=
  (((splitCh ',' positivePrompt).map cleanToken).flatMap
    (fun label => splitCh '|' label)).filter (fun s => s ≠ "")

/- ===== parseModelPromptLabel (src/utils/promptLabels.ts 18-26) =====

The regex `/(?:^|,\s*)Model:\s*([^,\n\r]+)/i` is embedded as a
leftmost-match scanner. -/

/-- The character class `[^,\n\r]`. -/
def isModelValCh (c : Char) : Bool :=
  c ≠ ',' && c ≠ '\n' && c ≠ '\r'

/-- After `Model:` has been consumed: `\s*([^,\n\r]+)`.  The greedy `\s*`
takes the maximal whitespace run; if no `[^,\n\r]+` character follows, it
backtracks, which can succeed only by giving back a trailing whitespace
character that is itself not a line terminator. -/
def modelCapture (l : List Char) : Option (List Char) :=
  let ws := l.takeWhile isWsJS
  let rest := l.drop ws.length
  let cap := rest.takeWhile isModelValCh
  if cap.isEmpty then
    match ws.reverse.find? (fun c => !isCrlf c) with
    | some c => some [c]
    | none => none
  else some cap

/-- Try the whole pattern at the current position.  `atStart` enables the
`^` alternative; the other alternative is a comma followed by `\s*`. -/
def tryModelAt (atStart : Bool) (l : List Char) : Option (List Char) :=
  let viaStart : Option (List Char) :=
    if atStart then (ciStrip "model:".data l).bind modelCapture else none
  match viaStart with
  | some cap => some cap
  | none =>
    match l with
    | ',' :: rest => (ciStrip "model:".data (rest.dropWhile isWsJS)).bind modelCapture
    | _ => none

/-- Leftmost-match scan for `(?:^|,\s*)Model:\s*([^,\n\r]+)`. -/
def findModelMatch : List Char → Bool → Option (List Char)
  | [], atStart => tryModelAt atStart []
  | c :: cs, atStart =>
    match tryModelAt atStart (c :: cs) with
    | some cap => some cap
    | none => findModelMatch cs false

/-- The function `parseModelPromptLabel` (src/utils/promptLabels.ts): capture the value
of a `Model:` marker at the string start or after a comma, clean it, and
return it unless the cleaned value is empty. -/
def parseModelPromptLabel (prompt : String) : Option String :=
  match findModelMatch prompt.data true with
  | none => none
  | some cap =>
    let normalized := cleanToken ⟨cap⟩
    if normalized = "" then none else some normalized

/- ===== promptToTags (NextcloudSystemTagger, unnamed/part_002 183-190) ===== -/

/-- JS `Set`-based first-occurrence deduplication: fold that appends an
element only when it has not been seen. -/
def insertSeen (seen : List String) (x : String) : List String :=
  if x ∈ seen then seen else seen ++ [x]

def firstDedup (l : List String) : List String :=
  l.foldl insertSeen []

/-- The per-segment normalization of `promptToTags`:
`s.trim().toLowerCase().replace(/\s+/g, " ")`. -/
def tagNormalize (s : String) : String :=
  ⟨collapseWs (lowerList (trimList s.data))⟩

/-- The `raw` token stream of `promptToTags`: split the prompt on commas,
normalize each segment, drop empties, drop segments shorter than two
characters or present in the (lower-cased) stopword set. -/
def promptTagCandidates (stopwords : List String) (prompt : String) : List String :=
  let stop := stopwords.map lowerStr
  (((splitCh ',' prompt).map tagNormalize).filter (fun s => s ≠ "")).filter
    (fun s => 2 ≤ s.length && !stop.contains s)

/-- The function `promptToTags` (NextcloudSystemTagger): the candidate stream,
deduplicated preserving first-seen order (`new Set`), truncated to the
tag limit (`slice(0, tagLimit)`). -/
def promptToTags (stopwords : List String) (tagLimit : Nat) (prompt : String) : List String :=
  (firstDedup (promptTagCandidates stopwords prompt)).take tagLimit

/- ===== The PngInfo record (src/PngInfo.ts lines 5-15) ===== -/

/-- A JSON-ish JavaScript value as far as the parser inspects it: a
string, a number, a boolean, or some other truthy object/array value. -/
inductive JsVal where
  | str (s : String)
  | num (q : Rat)
  | boolv (b : Bool)
  | box
deriving DecidableEq

/-- The `size` field; `none` components model the `NaN` that JS `Number`
coercion can produce on the JSON path. -/
structure PngSize where
  width : Option Rat
  height : Option Rat
deriving DecidableEq

/-- The canonical metadata record `PngInfo` (src/PngInfo.ts).  `raw` is
the original keyword-to-text map. -/
structure PngInfo where
  positive : Option String := none
  negative : Option String := none
  steps : Option Rat := none
  sampler : Option String := none
  cfg : Option Rat := none
  seed : Option JsVal := none
  size : Option PngSize := none
  model : Option String := none
  raw : List (String × String) := []
deriving DecidableEq

/-- JS truthiness of a value. -/
def jsTruthy : JsVal → Bool
  | .str s => s ≠ ""
  | .num q => q.num ≠ 0
  | .boolv b => b
  | .box => true

def jsTruthyOpt (v : Option JsVal) : Bool :=
  v.elim false jsTruthy

/- ===== Numeric coercion =====

JS `Number` on the strings this code builds.  The model covers plain
decimal forms (optional sign, digits and at most one dot); exotic forms
such as hex or exponent literals — which the repository's inputs never
produce — are mapped to `none` (NaN). -/

def digitsToNat (l : List Char) : Nat :=
  l.foldl (fun n c => 10 * n + (c.toNat - 48)) 0

/-- JS `Number` of a string consisting solely of `[0-9.]` characters
(the result of `v.replace(/[^\d.]/g, "")`): the empty string is `0`, one
dot yields a decimal provided at least one digit is present, and two or
more dots yield NaN (`none`). -/
def jsNumOfDigitDot (l : List Char) : Option Rat :=
  match splitChAux '.' l [] with
  | [intPart] => some (mkRat (Int.ofNat (digitsToNat intPart)) 1)
  | [intPart, fracPart] =>
    if intPart.isEmpty && fracPart.isEmpty then none
    else some (mkRat (Int.ofNat (digitsToNat (intPart ++ fracPart))) (10 ^ fracPart.length))
  | _ => none

/-- JS `Number(v)` for a general string (decimal forms only): whitespace
is trimmed, the empty string is `0`, an optional sign precedes a
digit-and-dot body. -/
def jsNumberFull (s : String) : Option Rat :=
  let l := trimList s.data
  match l with
  | [] => some (mkRat 0 1)
  | _ =>
    let signed : Bool × List Char :=
      match l with
      | '-' :: rest => (true, rest)
      | '+' :: rest => (false, rest)
      | _ => (false, l)
    match signed with
    | (neg, body) =>
      if body.isEmpty then none
      else if body.all isDigitDot then
        (jsNumOfDigitDot body).map (fun q => if neg then Rat.neg q else q)
      else none

/-- JS `Number` coercion of a JSON value (`none` = NaN). -/
def jsToNumber : JsVal → Option Rat
  | .num q => some q
  | .str s => jsNumberFull s
  | .boolv b => some (if b then mkRat 1 1 else mkRat 0 1)
  | .box => none

/- ===== parseHeaderLine (src/PngInfo.ts lines 228-257) ===== -/

/-- The metadata fields collected from a header line (`Partial<PngInfo>`
restricted to the keys `parseHeaderLine` can set). -/
structure HeaderMeta where
  steps : Option Rat := none
  sampler : Option String := none
  cfg : Option Rat := none
  seed : Option JsVal := none
  size : Option PngSize := none
  model : Option String := none
deriving DecidableEq

/-- JS `split(/\s*SEP\s*/)` for a non-whitespace single-character
separator: a leftmost-match scan in which each separator occurrence
absorbs the whitespace around it. -/
def splitWsSepAux (sep : Char) : Nat → List Char → List Char → List (List Char)
  | 0, l, acc => [acc.reverse ++ l]
  | _ + 1, [], acc => [acc.reverse]
  | fuel + 1, c :: cs, acc =>
    let w := (c :: cs).takeWhile isWsJS
    match (c :: cs).drop w.length with
    | d :: rest2 =>
      if d = sep then
        acc.reverse :: splitWsSepAux sep fuel (rest2.dropWhile isWsJS) []
      else splitWsSepAux sep fuel cs (c :: acc)
    | [] => splitWsSepAux sep fuel cs (c :: acc)

def splitWsSep (sep : Char) (l : List Char) : List (List Char) :=
  splitWsSepAux sep l.length l []

/-- Join with a single-character separator (JS `Array.prototype.join`). -/
def joinSep (sep : Char) : List (List Char) → List Char
  | [] => []
  | [x] => x
  | x :: xs => x ++ sep :: joinSep sep xs

/-- Leftmost match of `(\d+)\s*x\s*(\d+)` (the `Size` value pattern). -/
def findSizeAux : Nat → List Char → Option (Nat × Nat)
  | 0, _ => none
  | _ + 1, [] => none
  | fuel + 1, c :: cs =>
    if isDigitCh c then
      let d1 := (c :: cs).takeWhile isDigitCh
      let r1 := ((c :: cs).drop d1.length).dropWhile isWsJS
      match r1 with
      | x :: r3 =>
        if x = 'x' || x = 'X' then
          let d2 := (r3.dropWhile isWsJS).takeWhile isDigitCh
          if d2.isEmpty then findSizeAux fuel cs else some (digitsToNat d1, digitsToNat d2)
        else findSizeAux fuel cs
      | [] => findSizeAux fuel cs
    else findSizeAux fuel cs

def findSize (l : List Char) : Option (Nat × Nat) :=
  findSizeAux l.length l

/-- Process one comma-separated `key: value` segment of the header line
(the body of `parseHeaderLine`'s loop). -/
def headerStep (meta : HeaderMeta) (p : String) : HeaderMeta :=
  let pieces := splitWsSep ':' p.data
  let kRaw := pieces.headD []
  let k := lowerList kRaw
  let v := trimList (joinSep ':' pieces.tail)
  if k.isEmpty || v.isEmpty then meta
  else if "steps".data.isPrefixOf k then
    match jsNumOfDigitDot (v.filter isDigitDot) with
    | some n => { meta with steps := some n }
    | none => meta
  else if "sampler".data.isPrefixOf k then { meta with sampler := some ⟨v⟩ }
  else if "cfg".data.isPrefixOf k then
    match jsNumOfDigitDot (v.filter isDigitDot) with
    | some n => { meta with cfg := some n }
    | none => meta
  else if "seed".data.isPrefixOf k then
    match jsNumberFull ⟨v⟩ with
    | some n => { meta with seed := some (.num n) }
    | none => { meta with seed := some (.str ⟨v⟩) }
  else if "size".data.isPrefixOf k then
    match findSize v with
    | some (w, h) =>
      { meta with size := some ⟨some (mkRat (Int.ofNat w) 1), some (mkRat (Int.ofNat h) 1)⟩ }
    | none => meta
  else if "model".data.isPrefixOf k then { meta with model := some ⟨v⟩ }
  else meta

/-- The function `parseHeaderLine` (src/PngInfo.ts): split on commas, split each part
at its first colon, and dispatch on recognized key prefixes. -/
def parseHeaderLine (line : List Char) : HeaderMeta :=
  let parts := ((splitWsSep ',' line).map List.asString).filter (fun s => s ≠ "")
  parts.foldl headerStep {}

/- ===== parseA1111ParametersBlock (src/PngInfo.ts lines 158-226) ===== -/

/-- Match the split separator `/[\r\n]+Negative prompt:\s*/i` at the head
of `l`; on success return the remainder after the separator. -/
def negSepA1111 (l : List Char) : Option (List Char) :=
  let run := l.takeWhile isCrlf
  if run.isEmpty then none
  else
    match ciStrip "negative prompt:".data (l.drop run.length) with
    | some rest => some (rest.dropWhile isWsJS)
    | none => none

/-- Global split on `/[\r\n]+Negative prompt:\s*/i`. -/
def splitNegA1111Aux : Nat → List Char → List Char → List (List Char)
  | 0, l, acc => [acc.reverse ++ l]
  | _ + 1, [], acc => [acc.reverse]
  | fuel + 1, c :: cs, acc =>
    match negSepA1111 (c :: cs) with
    | some rest => acc.reverse :: splitNegA1111Aux fuel rest []
    | none => splitNegA1111Aux fuel cs (c :: acc)

def splitNegA1111 (l : List Char) : List (List Char) :=
  splitNegA1111Aux l.length l []

/-- First match of `/([\s\S]*?)(?:[\r\n]+(.+)|$)/` on the text following
the negative-prompt marker: the lazily shortest first group is everything
up to the first line break that is followed by at least one
non-line-break character; that following line is the second group.  If no
such break exists the whole text is the first group. -/
def matchNegTail : List Char → List Char × List Char
  | [] => ([], [])
  | c :: cs =>
    if isCrlf c then
      let run := (c :: cs).takeWhile isCrlf
      let rest := (c :: cs).drop run.length
      let line := rest.takeWhile (fun d => !isCrlf d)
      if line.isEmpty then
        match matchNegTail cs with
        | (g1, g2) => (c :: g1, g2)
      else ([], line)
    else
      match matchNegTail cs with
      | (g1, g2) => (c :: g1, g2)

/-- The keyword alternation of `HEADER_RE`
(`Steps|Sampler|CFG|CFG scale|Seed|Size|Model|Hires|Denoising|Clip|ENSD`). -/
def headerKeywords : List String :=
  ["Steps", "Sampler", "CFG", "CFG scale", "Seed", "Size", "Model", "Hires",
   "Denoising", "Clip", "ENSD"]

/-- The pattern `\s*(KW)\s*:` matched at the head of `l`, for any keyword of the
alternation. -/
def headerCore (l : List Char) : Bool :=
  let l2 := l.dropWhile isWsJS
  headerKeywords.any (fun kw =>
    match ciStrip kw.data l2 with
    | some r => (r.dropWhile isWsJS).head? = some ':'
    | none => false)

/-- The search `raw.search(HEADER_RE)` for `/(?:^|\n)\s*(KW)\s*:/i`: index 0 when the
anchored alternative matches, otherwise the index of the first `\n` whose
remainder matches the core. -/
def headerIdxAux : List Char → Nat → Option Nat
  | [], _ => none
  | c :: cs, i => if c = '\n' && headerCore cs then some i else headerIdxAux cs (i + 1)

def headerIdx (l : List Char) : Option Nat :=
  if headerCore l then some 0 else headerIdxAux l 0

/-- Split on `/\r?\n/` (used for the last-line fallback). -/
def splitLinesAux : List Char → List Char → List (List Char)
  | [], acc => [acc.reverse]
  | '\r' :: '\n' :: cs, acc => acc.reverse :: splitLinesAux cs []
  | '\n' :: cs, acc => acc.reverse :: splitLinesAux cs []
  | c :: cs, acc => splitLinesAux cs (c :: acc)

/-- JS `raw.split(/\r?\n/).slice(-1)[0] || ""`. -/
def lastLine (l : List Char) : List Char :=
  (splitLinesAux l []).getLastD []

/-- First match of `/Positive\s*prompt:\s*([\s\S]*)/i`: returns the
capture (everything after the marker and its trailing whitespace). -/
def posLabelAt (l : List Char) : Option (List Char) :=
  (ciStrip "positive".data l).bind (fun r1 =>
    (ciStrip "prompt:".data (r1.dropWhile isWsJS)).map (fun r2 => r2.dropWhile isWsJS))

def findPosLabel : List Char → Option (List Char)
  | [] => none
  | c :: cs =>
    match posLabelAt (c :: cs) with
    | some cap => some cap
    | none => findPosLabel cs

/-- JS `(mp?.[1] || part)`: the capture when the label-match exists and its
capture is non-empty, otherwise the whole part. -/
def bestOfPart (part : List Char) : List Char :=
  match findPosLabel part with
  | some cap => if cap.isEmpty then part else cap
  | none => part

/-- JS `if (x) x = removeWeights(x)` for a possibly absent (empty) value. -/
def normalizeIfPresent (l : List Char) : List Char :=
  if l.isEmpty then l else (removeWeights ⟨l⟩).data

/-- The shared tail of `parseA1111ParametersBlock` (from `const
headerLine = ...` to the final positivity check).  `positive` and
`negative` are the (possibly empty = absent) values accumulated by the
branches, `tail` the header candidate.  The source constructs the record
unconditionally and returns `null` when its `positive` ended up
undefined; constructing it only in the non-empty branch is
observationally identical. -/
def a1111Assemble (positive negative tail rawData : List Char)
    (rawField : List (String × String)) : Option PngInfo :=
  let headerLine := if tail.isEmpty then lastLine rawData else tail
  let meta := parseHeaderLine headerLine
  if (trimList (normalizeIfPresent positive)).isEmpty then none
  else
    some { positive := some ⟨trimList (normalizeIfPresent positive)⟩
           negative :=
             if (trimList (normalizeIfPresent negative)).isEmpty then none
             else some ⟨trimList (normalizeIfPresent negative)⟩
           steps := meta.steps, sampler := meta.sampler, cfg := meta.cfg
           seed := meta.seed, size := meta.size, model := meta.model
           raw := rawField }

/-- The function `parseA1111ParametersBlock` (src/PngInfo.ts): split positive text
from `Negative prompt:`, recover the negative line and the header line
(in loose mode by locating the header-keyword boundary), normalize
weights, and reject records with an empty trimmed positive. -/
def parseA1111ParametersBlock (raw : String) (all : Option (List (String × String)))
    (loose : Bool) : Option PngInfo :=
  let pieces := splitNegA1111 raw.data
  let rawField := all.getD [("parameters", raw)]
  let positive1 := trimList (pieces.headD [])
  if 2 ≤ pieces.length then
    let p := matchNegTail ((pieces.get? 1).getD [])
    a1111Assemble positive1 (trimList p.1) (trimList p.2) raw.data rawField
  else if loose then
    match headerIdx raw.data with
    | some idx =>
      if 0 < idx then
        let part := raw.data.take idx
        let tail := raw.data.drop idx
        let best := trimList (bestOfPart part)
        if best.isEmpty then a1111Assemble positive1 [] tail raw.data rawField
        else
          let meta := parseHeaderLine tail
          some { positive := some (removeWeights ⟨best⟩)
                 negative := none
                 steps := meta.steps, sampler := meta.sampler, cfg := meta.cfg
                 seed := meta.seed, size := meta.size, model := meta.model
                 raw := rawField }
      else a1111Assemble positive1 [] [] raw.data rawField
    | none => a1111Assemble positive1 [] [] raw.data rawField
  else a1111Assemble positive1 [] [] raw.data rawField

/- ===== parseFromJson (src/PngInfo.ts lines 259-286) ===== -/

/-- The JSON object as far as `parseFromJson` inspects it: each listed
key is either absent/null (`none`) or carries a value.  `Prompt` is the
capitalized variant key. -/
structure JsObj where
  prompt : Option JsVal := none
  positive : Option JsVal := none
  caption : Option JsVal := none
  text : Option JsVal := none
  Prompt : Option JsVal := none
  negative_prompt : Option JsVal := none
  negative : Option JsVal := none
  uc : Option JsVal := none
  steps : Option JsVal := none
  sampler : Option JsVal := none
  cfg_scale : Option JsVal := none
  seed : Option JsVal := none
  model : Option JsVal := none
  width : Option JsVal := none
  height : Option JsVal := none
deriving DecidableEq

/-- The `??` nullish-coalescing operator on optional JSON values. -/
def jsOrElse (a b : Option JsVal) : Option JsVal :=
  match a with
  | some v => some v
  | none => b

/-- The function `parseFromJson` (src/PngInfo.ts): extract aliased fields from a
parsed JSON object; accept only when the trimmed positive is non-empty
(truthy).  The source builds the record first and then rejects it when
`info.positive` is unset or empty; building it only in the accepting
branch is observationally identical. -/
def parseFromJson (obj : JsObj) (raw : List (String × String)) : Option PngInfo :=
  let pos := jsOrElse obj.prompt (jsOrElse obj.positive (jsOrElse obj.caption
    (jsOrElse obj.text obj.Prompt)))
  let neg := jsOrElse obj.negative_prompt (jsOrElse obj.negative obj.uc)
  match pos with
  | some (.str s) =>
    if trimStr s = "" then none
    else
      some
        { positive := some (trimStr s)
          negative :=
            match neg with
            | some (.str t) => some (trimStr t)
            | _ => none
          steps := match obj.steps with | some (.num q) => some q | _ => none
          sampler := match obj.sampler with | some (.str t) => some t | _ => none
          cfg := match obj.cfg_scale with | some (.num q) => some q | _ => none
          seed := obj.seed
          size :=
            if jsTruthyOpt obj.width && jsTruthyOpt obj.height then
              some ⟨(obj.width.getD .box) |> jsToNumber, (obj.height.getD .box) |> jsToNumber⟩
            else none
          model := match obj.model with | some (.str t) => some t | _ => none
          raw := raw }
  | _ => none

/- ===== parseFromFreeForm (src/PngInfo.ts lines 288-325) ===== -/

/-- Match the separator `/Negative prompt:\s*/i` at the head of `l`. -/
def negSepFree (l : List Char) : Option (List Char) :=
  (ciStrip "negative prompt:".data l).map (fun rest => rest.dropWhile isWsJS)

/-- Global split on `/Negative prompt:\s*/i`. -/
def splitNegFreeAux : Nat → List Char → List Char → List (List Char)
  | 0, l, acc => [acc.reverse ++ l]
  | _ + 1, [], acc => [acc.reverse]
  | fuel + 1, c :: cs, acc =>
    match negSepFree (c :: cs) with
    | some rest => acc.reverse :: splitNegFreeAux fuel rest []
    | none => splitNegFreeAux fuel cs (c :: acc)

def splitNegFree (l : List Char) : List (List Char) :=
  splitNegFreeAux l.length l []

/-- The record assembly shared by both branches of `parseFromFreeForm`:
reject when the (trimmed) positive is absent or empty, otherwise
normalize weights and attach the header metadata. -/
def freeAssemble (positive negative tail : List Char)
    (raw : List (String × String)) : Option PngInfo :=
  let meta := parseHeaderLine tail
  if positive.isEmpty then none
  else
    some { positive := some (removeWeights ⟨positive⟩)
           negative := if negative.isEmpty then none else some (removeWeights ⟨negative⟩)
           steps := meta.steps, sampler := meta.sampler, cfg := meta.cfg
           seed := meta.seed, size := meta.size, model := meta.model
           raw := raw }

/-- The function `parseFromFreeForm` (src/PngInfo.ts): split around a
`Negative prompt:` marker anywhere, or locate a header-keyword boundary,
and build the record when a non-empty positive remains. -/
def parseFromFreeForm (s : String) (raw : List (String × String)) : Option PngInfo :=
  let pieces := splitNegFree s.data
  if 2 ≤ pieces.length then
    let p := matchNegTail ((pieces.get? 1).getD [])
    freeAssemble (trimList (pieces.headD [])) (trimList p.1) (trimList p.2) raw
  else
    match headerIdx s.data with
    | some idx =>
      if 0 < idx then
        freeAssemble (trimList (s.data.take idx)) [] (trimList (s.data.drop idx)) raw
      else freeAssemble [] [] [] raw
    | none => freeAssemble [] [] [] raw

/- ===== pickFromTextMap (src/PngInfo.ts lines 117-156) ===== -/

/-- JS object assignment on a string-keyed record: overwrite the value of
an existing key in place, or append a new key. -/
def setAssoc : List (String × String) → String → String → List (String × String)
  | [], k, v => [(k, v)]
  | (k', v') :: rest, k, v =>
    if k' = k then (k', v) :: rest else (k', v') :: setAssoc rest k v

/-- The lower-cased-key flattening at the top of `pickFromTextMap`. -/
def lowerKeyMap (m : List (String × String)) : List (String × String) :=
  m.foldl (fun acc kv => setAssoc acc (lowerStr kv.1) kv.2) []

/-- Key lookup in the record. -/
def getAssoc (m : List (String × String)) (k : String) : Option String :=
  (m.find? (fun kv => kv.1 = k)).map (fun kv => kv.2)

/-- The loose-variant keys tried in step 2 of `pickFromTextMap`. -/
def looseKeys : List String :=
  ["description", "comment", "pnginfo", "software"]

/-- Step 2 of `pickFromTextMap`: try each loose key whose value is
truthy (non-empty); accept the first successful loose block parse. -/
def tryLooseKeys (lower textMap : List (String × String)) : List String → Option PngInfo
  | [] => none
  | k :: ks =>
    match getAssoc lower k with
    | some v =>
      if v ≠ "" then
        match parseA1111ParametersBlock v (some textMap) true with
        | some info => some info
        | none => tryLooseKeys lower textMap ks
      else tryLooseKeys lower textMap ks
    | none => tryLooseKeys lower textMap ks

/-- The test `/^\s*[\{\[]/` for a JSON candidate value. -/
def startsWithBrace (v : String) : Bool :=
  match v.data.dropWhile isWsJS with
  | c :: _ => c = Char.ofNat 123 || c = '['
  | [] => false

/-- Step 3 of `pickFromTextMap`: attempt `JSON.parse` (injected) on each
brace-starting value, accepting the first value whose parsed object
yields a record. -/
def tryJsonValues (jsonParse : String → Option JsObj) (textMap : List (String × String)) :
    List String → Option PngInfo
  | [] => none
  | v :: vs =>
    if startsWithBrace v then
      match jsonParse v with
      | some obj =>
        match parseFromJson obj textMap with
        | some info => some info
        | none => tryJsonValues jsonParse textMap vs
      | none => tryJsonValues jsonParse textMap vs
    else tryJsonValues jsonParse textMap vs

/-- The function `pickFromTextMap` (src/PngInfo.ts): the dialect resolution chain.
Step 1 (`parameters`) and step 4 (free-form on the first value containing
`Negative prompt:`) return their parse result directly; steps 2 and 3
fall through on failure; step 5 joins all values. -/
def pickFromTextMap (jsonParse : String → Option JsObj)
    (textMap : List (String × String)) : Option PngInfo :=
  let lower := lowerKeyMap textMap
  match getAssoc lower "parameters" with
  | some v => parseA1111ParametersBlock v (some textMap) false
  | none =>
    match tryLooseKeys lower textMap looseKeys with
    | some info => some info
    | none =>
      let vals := lower.map (fun kv => kv.2)
      match tryJsonValues jsonParse textMap vals with
      | some info => some info
      | none =>
        match vals.find? (fun s => ciSubstr "negative prompt:".data s.data) with
        | some withNeg => parseFromFreeForm withNeg textMap
        | none => parseFromFreeForm ⟨joinSep '\n' (vals.map (fun s => s.data))⟩ textMap

/- ===== parseAllPngTextChunks (src/PngInfo.ts lines 41-114) =====

The chunk list itself comes from the external `png-chunks-extract`
library; zlib inflation and Buffer UTF-8 decoding are injected as
collaborator functions (`inflate` returns `none` when `inflateSync`
throws). -/

/-- A raw chunk: its type name and its data bytes. -/
structure RawChunk where
  name : String
  data : List Nat

/-- Buffer `toString("latin1")`: each byte is one character. -/
def latin1 (bytes : List Nat) : String :=
  ⟨bytes.map Char.ofNat⟩

/-- JS `indexOf(0x00)`: index of the first zero byte, `none` when absent
(JS returns `-1`). -/
def indexOfZero (bytes : List Nat) : Option Nat :=
  bytes.findIdx? (fun b => b = 0)

/-- The helper `readNT`: consume bytes up to the next null (or the end) starting at
`off`; return the consumed bytes and the new offset. -/
def readNT (bytes : List Nat) (off : Nat) : List Nat × Nat :=
  let rest := bytes.drop off
  match indexOfZero rest with
  | some z => (rest.take z, off + z + 1)
  | none => (rest, bytes.length)

/-- Append a decoded text to a keyword's bucket (`(out[keyword] ||= [])
.push(text)`): JS object insertion order keeps the first position of a
key. -/
def pushText (out : List (String × List String)) (k : String) (t : String) :
    List (String × List String) :=
  if out.any (fun kv => kv.1 = k) then
    out.map (fun kv => if kv.1 = k then (kv.1, kv.2 ++ [t]) else kv)
  else out ++ [(k, [t])]

/-- Decoding of a single chunk, accumulating into `out`. -/
def decodeChunk (inflate : List Nat → Option (List Nat)) (utf8 : List Nat → String)
    (out : List (String × List String)) (ch : RawChunk) : List (String × List String) :=
  if ch.name = "tEXt" then
    match indexOfZero ch.data with
    | some i =>
      if 0 < i then
        pushText out (latin1 (ch.data.take i)) (latin1 (ch.data.drop (i + 1)))
      else out
    | none => out
  else if ch.name = "zTXt" then
    match indexOfZero ch.data with
    | some i =>
      if 0 < i ∧ i + 2 < ch.data.length then
        let keyword := latin1 (ch.data.take i)
        let curMethod := (ch.data.get? (i + 1)).getD 0
        let comp := ch.data.drop (i + 2)
        match (if curMethod = 0 then inflate comp else some comp) with
        | some textBuf => pushText out keyword (utf8 textBuf)
        | none => out
      else out
    | none => out
  else if ch.name = "iTXt" then
    match readNT ch.data 0 with
    | (kwBytes, off1) =>
      if off1 < ch.data.length then
        let compFlag := (ch.data.get? off1).getD 0
        let curMethod := ch.data.get? (off1 + 1)
        let off2 := off1 + 2
        match readNT ch.data off2 with
        | (_, off3) =>
          match readNT ch.data off3 with
          | (_, off4) =>
            let textBytes := ch.data.drop off4
            let decoded : Option (List Nat) :=
              if compFlag ≠ 0 then
                if curMethod = some 0 then inflate textBytes else some textBytes
              else some textBytes
            match decoded with
            | some textBuf => pushText out (latin1 kwBytes) (utf8 textBuf)
            | none => out
      else out
  else out

/-- The function `parseAllPngTextChunks` (src/PngInfo.ts): decode every text chunk and
join multiple texts per keyword with a newline. -/
def parseAllPngTextChunks (inflate : List Nat → Option (List Nat))
    (utf8 : List Nat → String) (chunks : List RawChunk) : List (String × String) :=
  let out := chunks.foldl (decodeChunk inflate utf8) []
  out.map (fun kv => (kv.1, ⟨joinSep '\n' (kv.2.map (fun s => s.data))⟩))

/- ===== WorkerPool (src/utils/workerPool.ts) =====

The pool's mutable fields (queue, activeCount, idleResolvers) are embedded
as counters; all state changes happen in the synchronous sections between
await points, so a run of the pool is a fold over atomic actions: an
`enqueue` call (wherever it comes from, including another task's
completion handler), the completion of one running task (the `.finally`
block), or an `onIdle` call. -/

/-- JS `Math.max(1, Math.floor(concurrency))` for an integral input. -/
def clampConcurrency (c : Int) : Nat :=
  (max 1 c).toNat

structure PoolState where
  queued : Nat
  active : Nat
  waiters : Nat
deriving DecidableEq

/-- The `while` loop of `runNext`: start queued tasks while the active
count is below the ceiling.  Each iteration moves one task from the queue
to the active set, so the queue length bounds the iteration count. -/
def drainLoop (conc : Nat) : Nat → PoolState → PoolState
  | 0, s => s
  | fuel + 1, s =>
    if s.active < conc ∧ 0 < s.queued then
      drainLoop conc fuel ⟨s.queued - 1, s.active + 1, s.waiters⟩
    else s

/-- The method `runNext`: drain the queue up to the ceiling, then release every idle
waiter at once (`idleResolvers.splice(0)`) when the pool has become
idle. -/
def runNext (conc : Nat) (s : PoolState) : PoolState :=
  let s2 := drainLoop conc s.queued s
  if s2.queued = 0 ∧ s2.active = 0 then ⟨s2.queued, s2.active, 0⟩ else s2

/-- The atomic pool events. -/
inductive PoolAction where
  | enq
  | complete
  | onIdle
deriving DecidableEq

/-- One pool event: `enqueue` pushes and calls `runNext`; a task
completion decrements the active count (`.finally`) and calls `runNext`;
`onIdle` resolves immediately when the pool is idle and otherwise
registers a waiter. -/
def poolStep (conc : Nat) (s : PoolState) : PoolAction → PoolState
  | .enq => runNext conc ⟨s.queued + 1, s.active, s.waiters⟩
  | .complete =>
    if s.active = 0 then s
    else runNext conc ⟨s.queued, s.active - 1, s.waiters⟩
  | .onIdle =>
    if s.queued = 0 ∧ s.active = 0 then s else ⟨s.queued, s.active, s.waiters + 1⟩

/-- A pool run from the initial state. -/
def poolRun (conc : Nat) (tr : List PoolAction) : PoolState :=
  tr.foldl (poolStep conc) ⟨0, 0, 0⟩

/- ===== The reconciliation loop's InFlightSet (src/main.ts 220-264) =====

`runPollCycle` processes each candidate photo: skip when its uid is
already in flight or its path fails the image-extension test, otherwise
add the uid to the set and enqueue the task; the task's `finally` block
removes the uid when it ends (success, skip or failure).  Candidate
arrivals and task terminations interleave on the single thread, so a run
is a fold over those two events.  Each enqueued task is started exactly
once by the pool, so the enqueue records double as execution records. -/

/-- The regex `WATCHED_IMAGE_FILE_RE = /\.(png|webp|jpg|jpeg)$/i`. -/
def isWatchedImageFile (path : String) : Bool :=
  let l := lowerList path.data
  ".png".data.isSuffixOf l || ".webp".data.isSuffixOf l ||
    ".jpg".data.isSuffixOf l || ".jpeg".data.isSuffixOf l

structure PollState where
  inFlight : List String
  executions : List String
deriving DecidableEq

inductive PollEvent where
  | cand (uid : String) (filePath : String)
  | finish (uid : String)

/-- One reconciliation event. -/
def pollStep (s : PollState) : PollEvent → PollState
  | .cand uid filePath =>
    if uid ∈ s.inFlight then s
    else if ¬isWatchedImageFile filePath then s
    else ⟨uid :: s.inFlight, s.executions ++ [uid]⟩
  | .finish uid => ⟨s.inFlight.erase uid, s.executions⟩

def pollRun (events : List PollEvent) : PollState :=
  events.foldl pollStep ⟨[], []⟩

/-- Whether a trace contains a task termination for `uid`. -/
def hasFinish (uid : String) : List PollEvent → Bool
  | [] => false
  | .finish u :: es => u = uid || hasFinish uid es
  | .cand _ _ :: es => hasFinish uid es

/- ===== processResolvedPhoto traces (src/main.ts 50-120 and the
unnamed poll-variant 156-222) =====

The per-item task is embedded as the sequence of remote index calls it
performs, as a function of the collaborator results (marker-check
outcome, file resolution, extracted prompt). -/

/-- A remote photo-index mutation/read observed at the interface. -/
inductive RemoteCall where
  | readLabels (marker : String)
  | addLabel (label : String) (priority : Nat)
  | updatePhoto
deriving DecidableEq

def isAddCall : RemoteCall → Bool
  | .addLabel _ _ => true
  | _ => false

/-- A derived-label write (`addLabel(uid, label)` with default
priority 0). -/
def isDerivedAdd : RemoteCall → Bool
  | .addLabel _ p => p = 0
  | _ => false

/-- The idempotency-marker write (`addLabel(uid, markerLabel, 10)`). -/
def isMarkerAdd : RemoteCall → Bool
  | .addLabel _ p => p = 10
  | _ => false

/-- The derived labels of a prompt: positive-prompt labels plus the
optional model label (shared by both variants). -/
def derivedLabels (prompt : String) : List String :=
  parsePositivePromptLabels prompt ++ (parseModelPromptLabel prompt).toList

/-- The method `processResolvedPhoto` in src/main.ts (lines 50-120): check the
marker, resolve the file, then — before waiting for stability and
extracting the prompt — write the marker label, and finally write the
derived labels. -/
def processResolvedPhotoMain (markerLabel : String) (alreadyImported : Bool)
    (resolved : Option String) (prompt : Option String) : List RemoteCall :=
  .readLabels markerLabel ::
    (if alreadyImported then []
     else
       match resolved with
       | none => []
       | some _ =>
         .addLabel markerLabel 10 ::
           (match prompt with
            | none => []
            | some p =>
              let labels := derivedLabels p
              if labels.isEmpty then []
              else labels.map (fun label => .addLabel label 0)))

/-- The method `processResolvedPhoto` in the unnamed poll-variant (lines 156-222):
check the marker, resolve the file, extract the prompt, write every
derived label, then write the marker label. -/
def processResolvedPhotoPollVar (markerLabel : String) (alreadyImported : Bool)
    (resolved : Option String) (prompt : Option String) : List RemoteCall :=
  .readLabels markerLabel ::
    (if alreadyImported then []
     else
       match resolved with
       | none => []
       | some _ =>
         match prompt with
         | none => []
         | some p =>
           let labels := derivedLabels p
           if labels.isEmpty then []
           else labels.map (fun label => .addLabel label 0) ++ [.addLabel markerLabel 10])

/- ===== hasLabel (src/services/PhotoPrismClient.ts 128-151) ===== -/

/-- A label entry of the photo-details response: `Name`, possibly nested
under `Label`. -/
structure PhotoLabel where
  Name : Option String := none
  Label : Option (Option String) := none
deriving DecidableEq

/-- The photo-details response body. -/
structure PhotoDetails where
  Labels : Option (List PhotoLabel) := none
  PhotoLabels : Option (List PhotoLabel) := none
deriving DecidableEq

/-- JS `item.Name ?? item.Label?.Name ?? ""`. -/
def photoLabelName (item : PhotoLabel) : String :=
  match item.Name with
  | some n => n
  | none =>
    match item.Label with
    | some (some n) => n
    | _ => ""

/-- The cleaned name list built by `hasLabel`: `Labels` then
`PhotoLabels`, each name trimmed and lower-cased, empties dropped. -/
def photoLabelNames (d : PhotoDetails) : List String :=
  (((d.Labels.getD []) ++ (d.PhotoLabels.getD [])).map
      (fun item => lowerStr (trimStr (photoLabelName item)))).filter
    (fun n => n ≠ "")

/-- The method `hasLabel` (src/services/PhotoPrismClient.ts): the remote read result
is injected (`none` = request failure, caught and turned into `false`);
an empty trimmed target also yields `false`; otherwise membership of the
lower-cased trimmed target in the cleaned name list. -/
def hasLabel (res : Option PhotoDetails) (label : String) : Bool :=
  match res with
  | none => false
  | some d =>
    let target := lowerStr (trimStr label)
    if target = "" then false
    else (photoLabelNames d).contains target

/- ===================== Helper lemmas ===================== -/

theorem strMk_eq_empty_iff (l : List Char) : (⟨l⟩ : String) = "" ↔ l = [] := by
  constructor
  · intro h
    exact congrArg String.data h
  · intro h
    subst h
    rfl

theorem lowerStr_eq_empty_iff (s : String) : lowerStr s = "" ↔ s = "" := by
  constructor
  · intro h
    have h2 : lowerList s.data = [] := by
      have := congrArg String.data h
      simpa [lowerStr] using this
    have h3 : s.data = [] := by simpa [lowerList] using h2
    cases s
    simpa [strMk_eq_empty_iff] using h3
  · intro h
    rw [h]
    rfl

/- ===================== C10 ===================== -/

/-- C10: `hasLabel` returns `true` exactly when the remote read succeeded
and the queried label — trimmed, compared case-insensitively — occurs
among the photo's cleaned label names; any request failure or an
empty-trimming label yields `false`. -/
theorem C10_hasLabel_spec (res : Option PhotoDetails) (label : String) :
    hasLabel res label = true ↔
      ∃ d, res = some d ∧ trimStr label ≠ "" ∧
        lowerStr (trimStr label) ∈ photoLabelNames d := by
  cases res with
  | none => simp [hasLabel]
  | some d =>
    simp only [hasLabel]
    by_cases h : lowerStr (trimStr label) = ""
    · have h0 : trimStr label = "" := (lowerStr_eq_empty_iff _).mp h
      simp [h, h0]
      intro hh
      exact absurd rfl hh
    · have hne : trimStr label ≠ "" := by
        intro hh
        exact h (by rw [hh]; rfl)
      simp only [h, if_false, if_neg h]
      constructor
      · intro hc
        exact ⟨d, rfl, hne, by simpa [List.contains] using hc⟩
      · rintro ⟨d', hd, _, hm⟩
        injection hd with hd
        subst hd
        simpa [List.contains] using hm

/- ===================== C5 ===================== -/

theorem drainLoop_active_le (conc fuel : Nat) (s : PoolState) (h : s.active ≤ conc) :
    (drainLoop conc fuel s).active ≤ conc := by
  induction fuel generalizing s with
  | zero => simpa [drainLoop] using h
  | succ n ih =>
    simp only [drainLoop]
    split
    · rename_i hcond
      exact ih ⟨s.queued - 1, s.active + 1, s.waiters⟩ (by show s.active + 1 ≤ conc; omega)
    · exact h

theorem runNext_active_le (conc : Nat) (s : PoolState) (h : s.active ≤ conc) :
    (runNext conc s).active ≤ conc := by
  simp only [runNext]
  split
  · exact drainLoop_active_le conc s.queued s h
  · exact drainLoop_active_le conc s.queued s h

theorem runNext_waiters (conc : Nat) (s : PoolState) :
    0 < (runNext conc s).waiters →
      0 < (runNext conc s).queued ∨ 0 < (runNext conc s).active := by
  simp only [runNext]
  split
  · intro h
    simp at h
  · rename_i hcond
    intro _
    push_neg at hcond
    by_cases hq : (drainLoop conc s.queued s).queued = 0
    · exact Or.inr (Nat.pos_of_ne_zero (hcond hq))
    · exact Or.inl (Nat.pos_of_ne_zero hq)

theorem poolStep_inv (conc : Nat) (s : PoolState) (a : PoolAction)
    (h1 : s.active ≤ conc)
    (h2 : 0 < s.waiters → 0 < s.queued ∨ 0 < s.active) :
    (poolStep conc s a).active ≤ conc ∧
      (0 < (poolStep conc s a).waiters →
        0 < (poolStep conc s a).queued ∨ 0 < (poolStep conc s a).active) := by
  cases a with
  | enq =>
    refine ⟨runNext_active_le conc _ h1, runNext_waiters conc _⟩
  | complete =>
    simp only [poolStep]
    split
    · exact ⟨h1, h2⟩
    · exact ⟨runNext_active_le conc _ (by show s.active - 1 ≤ conc; omega),
        runNext_waiters conc _⟩
  | onIdle =>
    simp only [poolStep]
    split
    · exact ⟨h1, h2⟩
    · rename_i hcond
      push_neg at hcond
      refine ⟨h1, fun _ => ?_⟩
      by_cases hq : s.queued = 0
      · exact Or.inr (Nat.pos_of_ne_zero (hcond hq))
      · exact Or.inl (Nat.pos_of_ne_zero hq)

theorem poolRun_inv (conc : Nat) (tr : List PoolAction) (s : PoolState)
    (h1 : s.active ≤ conc)
    (h2 : 0 < s.waiters → 0 < s.queued ∨ 0 < s.active) :
    (tr.foldl (poolStep conc) s).active ≤ conc ∧
      (0 < (tr.foldl (poolStep conc) s).waiters →
        0 < (tr.foldl (poolStep conc) s).queued ∨
          0 < (tr.foldl (poolStep conc) s).active) := by
  induction tr generalizing s with
  | nil => exact ⟨h1, h2⟩
  | cons a tr ih =>
    have := poolStep_inv conc s a h1 h2
    exact ih _ this.1 this.2

/-- C5: for every configured ceiling and every event trace — including
enqueues issued from completion handlers, which appear as `enq` events
between other events — the pool never has more than
`C = max(1, concurrency)` active tasks; pending idle-waiters exist only
while the pool is not idle (so waiters are released, all together in
`runNext`'s splice, exactly when the queue empties and the active count
reaches zero); and an `onIdle` call in an idle state resolves immediately
without registering a waiter. -/
theorem C5_workerPool_bounded (c : Int) (tr : List PoolAction) :
    1 ≤ clampConcurrency c ∧
      (poolRun (clampConcurrency c) tr).active ≤ clampConcurrency c ∧
      (0 < (poolRun (clampConcurrency c) tr).waiters →
        0 < (poolRun (clampConcurrency c) tr).queued ∨
          0 < (poolRun (clampConcurrency c) tr).active) ∧
      ((poolRun (clampConcurrency c) tr).queued = 0 ∧
          (poolRun (clampConcurrency c) tr).active = 0 →
        poolStep (clampConcurrency c) (poolRun (clampConcurrency c) tr) .onIdle =
          poolRun (clampConcurrency c) tr) := by
  have hc : 1 ≤ clampConcurrency c := by
    simp only [clampConcurrency]
    omega
  have hinv := poolRun_inv (clampConcurrency c) tr ⟨0, 0, 0⟩ (by simp) (by simp)
  refine ⟨hc, hinv.1, hinv.2, ?_⟩
  intro hidle
  simp [poolStep, hidle.1, hidle.2]

/-- Witness for C5 at a concrete ceiling and trace: three enqueues at
ceiling 2 leave at most two active tasks. -/
theorem C5_workerPool_bounded_witness :
    (poolRun (clampConcurrency 2) [.enq, .enq, .enq]).active ≤ clampConcurrency 2 :=
  (C5_workerPool_bounded 2 [.enq, .enq, .enq]).2.1

/- ===================== C6 ===================== -/

theorem pollStep_count (s : PollState) (e : PollEvent) (uid : String)
    (hnf : ∀ u, e = .finish u → u ≠ uid)
    (h : s.executions.count uid = (if uid ∈ s.inFlight then 1 else 0)) :
    (pollStep s e).executions.count uid =
      (if uid ∈ (pollStep s e).inFlight then 1 else 0) := by
  cases e with
  | cand u fp =>
    simp only [pollStep]
    by_cases hin : u ∈ s.inFlight
    · simpa [hin] using h
    · simp only [hin, if_false]
      by_cases him : isWatchedImageFile fp
      · simp only [him, not_true_eq_false, if_false, Bool.not_true]
        by_cases hu : u = uid
        · subst hu
          simp [List.count_append, h, hin]
        · simp [List.count_append, h, List.mem_cons, hu, Ne.symm hu]
      · simpa [him] using h
  | finish u =>
    have hne : u ≠ uid := hnf u rfl
    simp only [pollStep]
    rw [h]
    by_cases hm : uid ∈ s.inFlight
    · simp [hm, List.mem_erase_of_ne (Ne.symm hne)]
    · simp [hm, List.mem_erase_of_ne (Ne.symm hne)]

theorem pollRun_count (events : List PollEvent) (s : PollState) (uid : String)
    (hnf : hasFinish uid events = false)
    (h : s.executions.count uid = (if uid ∈ s.inFlight then 1 else 0)) :
    (events.foldl pollStep s).executions.count uid =
      (if uid ∈ (events.foldl pollStep s).inFlight then 1 else 0) := by
  induction events generalizing s with
  | nil => exact h
  | cons e es ih =>
    have hstep : ∀ u, e = .finish u → u ≠ uid := by
      intro u he hu
      subst he
      subst hu
      simp [hasFinish] at hnf
    have hes : hasFinish uid es = false := by
      cases e with
      | cand _ _ => simpa [hasFinish] using hnf
      | finish u =>
        simp [hasFinish] at hnf
        exact hnf.2
    exact ih (pollStep s e) hes (pollStep_count s e uid hstep h)

theorem pollRun_mem (events : List PollEvent) (s : PollState) (uid : String)
    (hnf : hasFinish uid events = false)
    (h : uid ∈ s.inFlight ∨ ∃ fp, isWatchedImageFile fp ∧ PollEvent.cand uid fp ∈ events) :
    uid ∈ (events.foldl pollStep s).inFlight := by
  induction events generalizing s with
  | nil =>
    rcases h with h | ⟨fp, _, hmem⟩
    · exact h
    · simp at hmem
  | cons e es ih =>
    have hes : hasFinish uid es = false := by
      cases e with
      | cand _ _ => simpa [hasFinish] using hnf
      | finish u =>
        simp [hasFinish] at hnf
        exact hnf.2
    rcases h with hin | ⟨fp, hfp, hmem⟩
    · refine ih _ hes (Or.inl ?_)
      cases e with
      | cand u fp2 =>
        simp only [pollStep]
        split
        · exact hin
        · split
          · exact hin
          · exact List.mem_cons_of_mem _ hin
      | finish u =>
        have hne : u ≠ uid := by
          intro hu
          subst hu
          simp [hasFinish] at hnf
        simp only [pollStep]
        exact (List.mem_erase_of_ne (Ne.symm hne)).mpr hin
    · rcases List.mem_cons.mp hmem with he | hmem2
      · subst he
        refine ih _ hes (Or.inl ?_)
        simp only [pollStep]
        by_cases hin2 : uid ∈ s.inFlight
        · simp [hin2]
        · simp [hin2, hfp]
      · refine ih _ hes ?_
        rcases e with _ | u
        · exact Or.inr ⟨fp, hfp, hmem2⟩
        · exact Or.inr ⟨fp, hfp, hmem2⟩

/-- C6: along any interleaving of candidate arrivals and task
terminations in which no task for `uid` terminates ("before the first
task completes"), the task for `uid` is enqueued — hence executed — at
most once, and exactly once as soon as some candidate for `uid` with a
supported image path has arrived.  A second candidate for an in-flight
identifier is skipped by the `inFlightPhotoUids.has` guard; the `finally`
block (`pollStep`'s `finish` event) is the only way an identifier leaves
the set. -/
theorem C6_inFlight_once (events : List PollEvent) (uid : String)
    (hnf : hasFinish uid events = false) :
    (pollRun events).executions.count uid ≤ 1 ∧
      ((∃ fp, isWatchedImageFile fp ∧ PollEvent.cand uid fp ∈ events) →
        (pollRun events).executions.count uid = 1) := by
  have hcount := pollRun_count events ⟨[], []⟩ uid hnf (by simp)
  constructor
  · rw [pollRun, hcount]
    split <;> omega
  · intro hex
    have hmem := pollRun_mem events ⟨[], []⟩ uid hnf (Or.inr hex)
    rw [pollRun, hcount]
    simp [hmem]

/-- Witness for C6: two rapid-succession candidates for the same uid
produce exactly one execution. -/
theorem C6_inFlight_once_witness :
    (pollRun [.cand "u1" "a.png", .cand "u1" "a.png"]).executions.count "u1" = 1 :=
  (C6_inFlight_once [.cand "u1" "a.png", .cand "u1" "a.png"] "u1" (by decide)).2
    ⟨"a.png", by decide, by simp⟩

/- ===================== C7 ===================== -/

theorem filter_isAddCall_map (labels : List String) :
    (labels.map (fun lab => RemoteCall.addLabel lab 0)).filter isAddCall =
      labels.map (fun lab => RemoteCall.addLabel lab 0) := by
  induction labels with
  | nil => rfl
  | cons lab rest ih => simp [isAddCall, ih]

theorem filter_isDerivedAdd_map (labels : List String) :
    (labels.map (fun lab => RemoteCall.addLabel lab 0)).filter isDerivedAdd =
      labels.map (fun lab => RemoteCall.addLabel lab 0) := by
  induction labels with
  | nil => rfl
  | cons lab rest ih => simp [isDerivedAdd, ih]

theorem filter_isMarkerAdd_map (labels : List String) :
    (labels.map (fun lab => RemoteCall.addLabel lab 0)).filter isMarkerAdd = [] := by
  induction labels with
  | nil => rfl
  | cons lab rest ih => simp [isMarkerAdd, ih]

/-- C7 (amended): among the remote `addLabel` calls of the per-item task,
the poll-variant (`unnamed` sources, lines 156-222) performs all
derived-label writes (priority 0) before the marker write (priority 10),
whereas the task in src/main.ts performs the marker write before all
derived-label writes — there the marker is written immediately after
file resolution, before prompt extraction. -/
theorem C7_amended_label_order (marker : String) (already : Bool)
    (resolved : Option String) (prompt : Option String) :
    ((processResolvedPhotoPollVar marker already resolved prompt).filter isAddCall =
        (processResolvedPhotoPollVar marker already resolved prompt).filter isDerivedAdd ++
          (processResolvedPhotoPollVar marker already resolved prompt).filter isMarkerAdd) ∧
      ((processResolvedPhotoMain marker already resolved prompt).filter isAddCall =
        (processResolvedPhotoMain marker already resolved prompt).filter isMarkerAdd ++
          (processResolvedPhotoMain marker already resolved prompt).filter isDerivedAdd) := by
  cases already with
  | true => simp [processResolvedPhotoPollVar, processResolvedPhotoMain, isAddCall,
      isDerivedAdd, isMarkerAdd]
  | false =>
    cases resolved with
    | none => simp [processResolvedPhotoPollVar, processResolvedPhotoMain, isAddCall,
        isDerivedAdd, isMarkerAdd]
    | some path =>
      cases prompt with
      | none => simp [processResolvedPhotoPollVar, processResolvedPhotoMain, isAddCall,
          isDerivedAdd, isMarkerAdd]
      | some p =>
        by_cases hL : (derivedLabels p).isEmpty
        · simp [processResolvedPhotoPollVar, processResolvedPhotoMain, hL, isAddCall,
            isDerivedAdd, isMarkerAdd]
        · simp [processResolvedPhotoPollVar, processResolvedPhotoMain, hL, isAddCall,
            isDerivedAdd, isMarkerAdd, List.filter_append, filter_isAddCall_map,
            filter_isDerivedAdd_map, filter_isMarkerAdd_map]

/-- Counterexample to C7 as stated: in src/main.ts's task, for a
candidate that reaches the label-writing stage (marker absent, file
resolved, prompt extracted), the add-call sequence starts with the
marker write (priority 10) and the derived-label write follows it. -/
theorem C7_counterexample :
    (processResolvedPhotoMain "pp:prompt_imported" false (some "/photos/a.png")
        (some "a cat")).filter isAddCall =
      [.addLabel "pp:prompt_imported" 10, .addLabel "a cat" 0] := by decide

/- ===================== C3 ===================== -/

theorem parenWeightTail_none (l : List Char) (h : ':' ∉ l) : parenWeightTail l = none := by
  cases l with
  | nil => rfl
  | cons c cs =>
    have hc : ¬c = ':' := by
      intro hh
      exact h (hh ▸ List.mem_cons_self c cs)
    simp [parenWeightTail, hc]

theorem parenGroup_none (l : List Char) (acc : List Char) (h : ':' ∉ l) :
    parenGroup acc l = none := by
  induction l generalizing acc with
  | nil => rfl
  | cons c cs ih =>
    have hcs : ':' ∉ cs := fun hm => h (List.mem_cons_of_mem c hm)
    simp only [parenGroup, parenWeightTail_none cs hcs]
    split
    · rfl
    · exact ih _ hcs

theorem matchParenWeight_none (l : List Char) (h : ':' ∉ l) : matchParenWeight l = none := by
  cases l with
  | nil => rfl
  | cons c cs =>
    have hcs : ':' ∉ cs := fun hm => h (List.mem_cons_of_mem c hm)
    simp [matchParenWeight, parenGroup_none cs [] hcs]

theorem parenPassAux_id (fuel : Nat) (l : List Char) (h : ':' ∉ l) :
    parenPassAux fuel l = l := by
  induction fuel generalizing l with
  | zero => rfl
  | succ n ih =>
    cases l with
    | nil => rfl
    | cons c cs =>
      have hcs : ':' ∉ cs := fun hm => h (List.mem_cons_of_mem c hm)
      simp [parenPassAux, matchParenWeight_none _ h, ih cs hcs]

theorem bareSplitIdx_none (l : List Char) (i : Nat) (h : ':' ∉ l) :
    bareSplitIdx l i = none := by
  induction l generalizing i with
  | nil => rfl
  | cons c cs ih =>
    have hc : ¬c = ':' := by
      intro hh
      exact h (hh ▸ List.mem_cons_self c cs)
    have hcs : ':' ∉ cs := fun hm => h (List.mem_cons_of_mem c hm)
    simp [bareSplitIdx, ih _ hcs, hc]

theorem matchBareWeight_none (l : List Char) (h : ':' ∉ l) : matchBareWeight l = none := by
  have hrun : ':' ∉ l.takeWhile (fun c => !isWsJS c) :=
    fun hm => h ((List.takeWhile_sublist _).subset hm)
  simp [matchBareWeight, bareSplitIdx_none _ 0 hrun]

theorem barePassAux_id (fuel : Nat) (l : List Char) (h : ':' ∉ l) :
    barePassAux fuel l = l := by
  induction fuel generalizing l with
  | zero => rfl
  | succ n ih =>
    cases l with
    | nil => rfl
    | cons c cs =>
      have hcs : ':' ∉ cs := fun hm => h (List.mem_cons_of_mem c hm)
      simp [barePassAux, matchBareWeight_none _ h, ih cs hcs]

theorem removeWeights_id (s : String) (h : ':' ∉ s.data) : removeWeights s = s := by
  have h1 : parenPass s.data = s.data := parenPassAux_id _ _ h
  have h2 : barePass (parenPass s.data) = s.data := by
    rw [h1]
    exact barePassAux_id _ _ h
  simp only [removeWeights, h2]

/-- Counterexample to C3 as stated: `removeWeights` is not idempotent;
on `"a:1:2"` the greedy `\S+` keeps the first colon-weight, and a second
application strips it. -/
theorem C3_counterexample :
    removeWeights (removeWeights "a:1:2") ≠ removeWeights "a:1:2" := by decide

/-- C3 (amended): `removeWeights` collapses `(token:weight)` to `(token)`
and a remaining bare `token:number` to `token` (the specification'sexample) — and it is the identity, hence idempotent, on every string
without a colon; but it is not idempotent in general, as a token with
stacked colon-weights (`a:1:2`) loses only its last weight per pass. -/
theorem C3_amended_removeWeights (s : String) (h : ':' ∉ s.data) :
    removeWeights "(flower:1.2), tree:0.8" = "(flower), tree" ∧
      removeWeights "a:1:2" = "a:1" ∧
      removeWeights s = s ∧
      removeWeights (removeWeights s) = removeWeights s := by
  refine ⟨by decide, by decide, removeWeights_id s h, ?_⟩
  rw [removeWeights_id s h, removeWeights_id s h]

/-- Witness for C3 (amended) at the colon-free string `"tree, flower"`. -/
theorem C3_amended_removeWeights_witness :
    removeWeights "tree, flower" = "tree, flower" ∧
      removeWeights (removeWeights "tree, flower") = removeWeights "tree, flower" := by
  have h := C3_amended_removeWeights "tree, flower" (by decide)
  exact ⟨h.2.2.1, h.2.2.2⟩

/- ===================== C4 ===================== -/

theorem toNat_ofNat_valid (n : Nat) (h : n < 55296) : (Char.ofNat n).toNat = n := by
  have hv : Nat.isValidChar n := Or.inl h
  rw [Char.ofNat, dif_pos hv]
  rfl

theorem lowerChar_idem (c : Char) : lowerChar (lowerChar c) = lowerChar c := by
  by_cases h : 65 ≤ c.toNat ∧ c.toNat ≤ 90
  · have h1 : lowerChar c = Char.ofNat (c.toNat + 32) := by rw [lowerChar, if_pos h]
    have ht : (Char.ofNat (c.toNat + 32)).toNat = c.toNat + 32 :=
      toNat_ofNat_valid _ (by omega)
    rw [h1, lowerChar, if_neg (by rw [ht]; omega)]
  · have h1 : lowerChar c = c := by rw [lowerChar, if_neg h]
    rw [h1]
    exact h1

theorem collapseWsAux_chars (fuel : Nat) (l : List Char) (c : Char)
    (hc : c ∈ collapseWsAux fuel l) : c = ' ' ∨ c ∈ l := by
  induction fuel generalizing l with
  | zero => exact Or.inr hc
  | succ n ih =>
    cases l with
    | nil => simp [collapseWsAux] at hc
    | cons a as =>
      by_cases hws : isWsJS a
      · simp only [collapseWsAux, hws, if_pos] at hc
        rcases List.mem_cons.mp hc with h1 | h2
        · exact Or.inl h1
        · rcases ih _ h2 with h3 | h4
          · exact Or.inl h3
          · exact Or.inr ((List.dropWhile_sublist _).subset h4)
      · simp only [collapseWsAux, hws, Bool.false_eq_true, if_neg] at hc
        rcases List.mem_cons.mp hc with h1 | h2
        · exact Or.inr (h1 ▸ List.mem_cons_self a as)
        · rcases ih _ h2 with h3 | h4
          · exact Or.inl h3
          · exact Or.inr (List.mem_cons_of_mem a h4)

theorem tagNormalize_lower_fix (s : String) : lowerStr (tagNormalize s) = tagNormalize s := by
  have hfix : ∀ c ∈ collapseWs (lowerList (trimList s.data)), lowerChar c = id c := by
    intro c hc
    have hc2 : c ∈ collapseWsAux (lowerList (trimList s.data)).length
        (lowerList (trimList s.data)) := hc
    rcases collapseWsAux_chars _ _ c hc2 with h1 | h2
    · rw [h1]
      rfl
    · have h2b : c ∈ List.map lowerChar (trimList s.data) := h2
      rcases List.mem_map.mp h2b with ⟨d, _, rfl⟩
      exact lowerChar_idem d
  show (⟨lowerList (collapseWs (lowerList (trimList s.data)))⟩ : String) =
    ⟨collapseWs (lowerList (trimList s.data))⟩
  congr 1
  show List.map lowerChar (collapseWs (lowerList (trimList s.data))) = _
  rw [List.map_congr_left hfix, List.map_id]

theorem insertSeen_sublist (seen : List String) (x : String) :
    List.Sublist (insertSeen seen x) (seen ++ [x]) := by
  unfold insertSeen
  split
  · exact List.sublist_append_left seen [x]
  · exact List.Sublist.refl _

theorem insertSeen_nodup (seen : List String) (x : String) (h : seen.Nodup) :
    (insertSeen seen x).Nodup := by
  unfold insertSeen
  split
  · exact h
  · rename_i hx
    rw [← List.concat_eq_append]
    exact List.Nodup.concat hx h

theorem foldl_insertSeen_nodup (l : List String) :
    ∀ seen : List String, seen.Nodup → (l.foldl insertSeen seen).Nodup := by
  induction l with
  | nil => exact fun _ h => h
  | cons a as ih => exact fun seen h => ih _ (insertSeen_nodup seen a h)

theorem foldl_insertSeen_sublist (l : List String) :
    ∀ seen : List String, List.Sublist (l.foldl insertSeen seen) (seen ++ l) := by
  induction l with
  | nil =>
    intro seen
    simpa using List.Sublist.refl seen
  | cons a as ih =>
    intro seen
    have h1 := ih (insertSeen seen a)
    have h2 : List.Sublist (insertSeen seen a ++ as) ((seen ++ [a]) ++ as) :=
      (insertSeen_sublist seen a).append_right as
    have h3 := h1.trans h2
    simpa [List.append_assoc] using h3

theorem firstDedup_nodup (l : List String) : (firstDedup l).Nodup :=
  foldl_insertSeen_nodup l [] List.nodup_nil

theorem firstDedup_sublist (l : List String) : List.Sublist (firstDedup l) l := by
  simpa using foldl_insertSeen_sublist l []

/-- C4: `promptToTags` deduplicates case-insensitively while preserving
first-seen order: the produced label list has no two entries equal after
lower-casing (every entry is already lower-cased by the normalization
stage, and the `Set`-based dedup removes exact duplicates), it is a
subsequence of the normalized candidate stream (so each label sits at the
position of its first occurrence), and `"Cat, cat, DOG"` with no
stopwords and any limit ≥ 3 yields exactly `["cat", "dog"]`. -/
theorem C4_promptToTags_dedup (prompt : String) (stopwords : List String) (limit : Nat) :
    ((promptToTags stopwords limit prompt).map lowerStr).Nodup ∧
      List.Sublist (promptToTags stopwords limit prompt)
        (promptTagCandidates stopwords prompt) ∧
      (3 ≤ limit → promptToTags [] limit "Cat, cat, DOG" = ["cat", "dog"]) := by
  refine ⟨?_, ?_, ?_⟩
  · have hnd : (promptToTags stopwords limit prompt).Nodup :=
      (List.take_sublist _ _).nodup (firstDedup_nodup _)
    have hfix : ∀ x ∈ promptToTags stopwords limit prompt, lowerStr x = id x := by
      intro x hx
      have hx2 : x ∈ promptTagCandidates stopwords prompt := by
        have h1 : x ∈ firstDedup (promptTagCandidates stopwords prompt) :=
          (List.take_sublist _ _).subset hx
        exact (firstDedup_sublist _).subset h1
      have hx3 := List.mem_filter.mp ((List.mem_filter.mp hx2).1)
      rcases List.mem_map.mp hx3.1 with ⟨seg, _, rfl⟩
      exact tagNormalize_lower_fix seg
    rw [List.map_congr_left hfix, List.map_id]
    exact hnd
  · exact (List.take_sublist _ _).trans (firstDedup_sublist _)
  · intro hlim
    have hfd : firstDedup (promptTagCandidates [] "Cat, cat, DOG") = ["cat", "dog"] := by
      decide
    simp only [promptToTags, hfd]
    apply List.take_of_length_le
    simp only [List.length_cons, List.length_nil]
    omega

/-- Witness for C4 at the concrete input of the claim with limit 5. -/
theorem C4_promptToTags_dedup_witness :
    promptToTags [] 5 "Cat, cat, DOG" = ["cat", "dog"] :=
  (C4_promptToTags_dedup "Cat, cat, DOG" [] 5).2.2 (by omega)

/- ===================== C2 ===================== -/

theorem trimList_eq_nil_iff (l : List Char) :
    trimList l = [] ↔ ∀ c ∈ l, isWsJS c = true := by
  simp only [trimList]
  rw [List.reverse_eq_nil_iff, List.dropWhile_eq_nil_iff]
  constructor
  · intro h c hc
    have hsplit := List.takeWhile_append_dropWhile isWsJS l
    rw [← hsplit] at hc
    rcases List.mem_append.mp hc with h1 | h2
    · exact List.mem_takeWhile_imp h1
    · exact h c (List.mem_reverse.mpr h2)
  · intro h c hc
    exact h c ((List.dropWhile_sublist _).subset (List.mem_reverse.mp hc))

theorem dropWhile_head_false (p : Char → Bool) (l : List Char) (c : Char) (cs : List Char)
    (h : l.dropWhile p = c :: cs) : p c = false := by
  induction l with
  | nil => simp [List.dropWhile] at h
  | cons a as ih =>
    by_cases hp : p a
    · rw [List.dropWhile_cons] at h
      simp only [hp, if_pos] at h
      exact ih h
    · rw [List.dropWhile_cons] at h
      simp only [hp, if_neg, Bool.false_eq_true] at h
      injection h with h1 _
      subst h1
      simpa using hp

theorem trimList_has_nonWs (l : List Char) (h : trimList l ≠ []) :
    ∃ c ∈ trimList l, isWsJS c = false := by
  have hveq : trimList l = ((l.dropWhile isWsJS).reverse.dropWhile isWsJS).reverse := rfl
  cases hc : (l.dropWhile isWsJS).reverse.dropWhile isWsJS with
  | nil =>
    exfalso
    apply h
    rw [hveq, hc]
    rfl
  | cons c cs =>
    refine ⟨c, ?_, dropWhile_head_false _ _ _ _ hc⟩
    rw [hveq, hc]
    exact List.mem_reverse.mpr (List.mem_cons_self c cs)

theorem trim_trim_ne (x : List Char) (h : trimList x ≠ []) : trimStr ⟨trimList x⟩ ≠ "" := by
  obtain ⟨c, hc, hcw⟩ := trimList_has_nonWs x h
  intro heq
  have h0 : trimList (trimList x) = [] := (strMk_eq_empty_iff _).mp heq
  have hall := (trimList_eq_nil_iff _).mp h0 c hc
  rw [hcw] at hall
  exact Bool.false_ne_true hall

theorem bareSplitIdx_some_ge (l : List Char) (i k : Nat) (h : bareSplitIdx l i = some k) :
    1 ≤ k := by
  induction l generalizing i with
  | nil => simp [bareSplitIdx] at h
  | cons c cs ih =>
    simp only [bareSplitIdx] at h
    cases hrec : bareSplitIdx cs (i + 1) with
    | some k2 =>
      rw [hrec] at h
      injection h with h2
      subst h2
      exact ih (i + 1) hrec
    | none =>
      rw [hrec] at h
      have h2 : (if (decide (c = ':') && decide (1 ≤ i) && cs.head?.elim false isDigitDot) = true
          then some i else none) = some k := h
      split at h2
      · rename_i hcond
        injection h2 with h3
        subst h3
        simp only [Bool.and_eq_true, decide_eq_true_eq] at hcond
        exact hcond.1.2
      · exact absurd h2 (by simp)

theorem matchBareWeight_head (l g rest : List Char)
    (h : matchBareWeight l = some (g, rest)) : ∃ c ∈ g, isWsJS c = false := by
  simp only [matchBareWeight] at h
  cases hidx : bareSplitIdx (l.takeWhile fun c => !isWsJS c) 0 with
  | none =>
    rw [hidx] at h
    exact absurd h (by simp)
  | some k =>
    rw [hidx] at h
    injection h with hp
    have hg : l.take k = g := congrArg Prod.fst hp
    have hk : 1 ≤ k := bareSplitIdx_some_ge _ _ _ hidx
    have hrun : l.takeWhile (fun c => !isWsJS c) ≠ [] := by
      intro hr
      rw [hr] at hidx
      simp [bareSplitIdx] at hidx
    cases l with
    | nil => simp [List.takeWhile] at hrun
    | cons c cs =>
      have hcws : isWsJS c = false := by
        by_cases hw : isWsJS c
        · rw [List.takeWhile_cons] at hrun
          simp [hw] at hrun
        · simpa using hw
      refine ⟨c, ?_, hcws⟩
      rw [← hg]
      cases k with
      | zero => omega
      | succ k2 => exact List.mem_cons_self c _

theorem barePassAux_nonWs (fuel : Nat) (l : List Char)
    (h : ∃ c ∈ l, isWsJS c = false) :
    ∃ c ∈ barePassAux fuel l, isWsJS c = false := by
  induction fuel generalizing l with
  | zero => exact h
  | succ n ih =>
    cases l with
    | nil => simpa using h
    | cons a as =>
      cases hm : matchBareWeight (a :: as) with
      | some p =>
        obtain ⟨g, rest⟩ := p
        obtain ⟨c, hcg, hcw⟩ := matchBareWeight_head _ _ _ hm
        simp only [barePassAux, hm]
        exact ⟨c, List.mem_append.mpr (Or.inl hcg), hcw⟩
      | none =>
        simp only [barePassAux, hm]
        by_cases ha : isWsJS a
        · obtain ⟨c, hc, hcw⟩ := h
          rcases List.mem_cons.mp hc with rfl | hc2
          · rw [ha] at hcw
            exact absurd hcw (by simp)
          · obtain ⟨c2, hc2b, hcw2⟩ := ih as ⟨c, hc2, hcw⟩
            exact ⟨c2, List.mem_cons_of_mem _ hc2b, hcw2⟩
        · exact ⟨a, List.mem_cons_self a _, by simpa using ha⟩

theorem parenPassAux_nonWs (fuel : Nat) (l : List Char)
    (h : ∃ c ∈ l, isWsJS c = false) :
    ∃ c ∈ parenPassAux fuel l, isWsJS c = false := by
  induction fuel generalizing l with
  | zero => exact h
  | succ n ih =>
    cases l with
    | nil => simpa using h
    | cons a as =>
      cases hm : matchParenWeight (a :: as) with
      | some p =>
        obtain ⟨g, rest⟩ := p
        simp only [parenPassAux, hm]
        exact ⟨'(', List.mem_cons_self _ _, by decide⟩
      | none =>
        simp only [parenPassAux, hm]
        by_cases ha : isWsJS a
        · obtain ⟨c, hc, hcw⟩ := h
          rcases List.mem_cons.mp hc with rfl | hc2
          · rw [ha] at hcw
            exact absurd hcw (by simp)
          · obtain ⟨c2, hc2b, hcw2⟩ := ih as ⟨c, hc2, hcw⟩
            exact ⟨c2, List.mem_cons_of_mem _ hc2b, hcw2⟩
        · exact ⟨a, List.mem_cons_self a _, by simpa using ha⟩

theorem removeWeights_nonWs (s : String) (h : ∃ c ∈ s.data, isWsJS c = false) :
    ∃ c ∈ (removeWeights s).data, isWsJS c = false := by
  have h1 := parenPassAux_nonWs s.data.length s.data h
  exact barePassAux_nonWs _ _ h1

theorem trim_removeWeights_trim_ne (z : List Char) (hz : trimList z ≠ []) :
    trimStr (removeWeights ⟨trimList z⟩) ≠ "" := by
  obtain ⟨c, hc, hcw⟩ := trimList_has_nonWs z hz
  obtain ⟨d, hd, hdw⟩ := removeWeights_nonWs ⟨trimList z⟩ ⟨c, hc, hcw⟩
  intro heq
  have h0 : trimList (removeWeights ⟨trimList z⟩).data = [] := (strMk_eq_empty_iff _).mp heq
  have hall := (trimList_eq_nil_iff _).mp h0 d hd
  rw [hdw] at hall
  exact Bool.false_ne_true hall

theorem a1111Assemble_positiveOk (positive negative tail rawData : List Char)
    (rawField : List (String × String)) (info : PngInfo)
    (h : a1111Assemble positive negative tail rawData rawField = some info) :
    ∃ p, info.positive = some p ∧ trimStr p ≠ "" := by
  simp only [a1111Assemble] at h
  split at h
  · exact absurd h (by simp)
  · rename_i hne
    injection h with h2
    subst h2
    refine ⟨_, rfl, ?_⟩
    apply trim_trim_ne
    simpa using hne

theorem freeAssemble_positiveOk (positive negative tail : List Char)
    (raw : List (String × String)) (info : PngInfo)
    (h : freeAssemble positive negative tail raw = some info)
    (hpos : positive = [] ∨ ∃ z, positive = trimList z) :
    ∃ p, info.positive = some p ∧ trimStr p ≠ "" := by
  simp only [freeAssemble] at h
  split at h
  · exact absurd h (by simp)
  · rename_i hne
    injection h with h2
    subst h2
    rcases hpos with rfl | ⟨z, rfl⟩
    · simp at hne
    · exact ⟨_, rfl, trim_removeWeights_trim_ne z (by simpa using hne)⟩

theorem parseFromFreeForm_positiveOk (s : String) (raw : List (String × String))
    (info : PngInfo) (h : parseFromFreeForm s raw = some info) :
    ∃ p, info.positive = some p ∧ trimStr p ≠ "" := by
  simp only [parseFromFreeForm] at h
  split at h
  · exact freeAssemble_positiveOk _ _ _ _ _ h (Or.inr ⟨_, rfl⟩)
  · split at h
    · split at h
      · exact freeAssemble_positiveOk _ _ _ _ _ h (Or.inr ⟨_, rfl⟩)
      · exact freeAssemble_positiveOk _ _ _ _ _ h (Or.inl rfl)
    · exact freeAssemble_positiveOk _ _ _ _ _ h (Or.inl rfl)

theorem parseA1111_positiveOk (raw : String) (all : Option (List (String × String)))
    (loose : Bool) (info : PngInfo)
    (h : parseA1111ParametersBlock raw all loose = some info) :
    ∃ p, info.positive = some p ∧ trimStr p ≠ "" := by
  simp only [parseA1111ParametersBlock] at h
  split at h
  · exact a1111Assemble_positiveOk _ _ _ _ _ _ h
  · split at h
    · split at h
      · split at h
        · split at h
          · exact a1111Assemble_positiveOk _ _ _ _ _ _ h
          · rename_i hbest
            injection h with h2
            subst h2
            refine ⟨_, rfl, ?_⟩
            apply trim_removeWeights_trim_ne
            simpa using hbest
        · exact a1111Assemble_positiveOk _ _ _ _ _ _ h
      · exact a1111Assemble_positiveOk _ _ _ _ _ _ h
    · exact a1111Assemble_positiveOk _ _ _ _ _ _ h

theorem parseFromJson_positiveOk (obj : JsObj) (raw : List (String × String))
    (info : PngInfo) (h : parseFromJson obj raw = some info) :
    ∃ p, info.positive = some p ∧ trimStr p ≠ "" := by
  simp only [parseFromJson] at h
  split at h
  · rename_i s hs
    split at h
    · exact absurd h (by simp)
    · rename_i hne
      injection h with h2
      subst h2
      refine ⟨_, rfl, ?_⟩
      have hdata : trimList s.data ≠ [] := by
        intro hnil
        exact hne ((strMk_eq_empty_iff _).mpr hnil)
      exact trim_trim_ne s.data hdata
  · exact absurd h (by simp)

theorem tryLooseKeys_positiveOk (lower textMap : List (String × String))
    (ks : List String) (info : PngInfo)
    (h : tryLooseKeys lower textMap ks = some info) :
    ∃ p, info.positive = some p ∧ trimStr p ≠ "" := by
  induction ks with
  | nil => simp [tryLooseKeys] at h
  | cons k ks ih =>
    simp only [tryLooseKeys] at h
    split at h
    · split at h
      · split at h
        · rename_i hp
          injection h with h2
          subst h2
          exact parseA1111_positiveOk _ _ _ _ hp
        · exact ih h
      · exact ih h
    · exact ih h

theorem tryJsonValues_positiveOk (jsonParse : String → Option JsObj)
    (textMap : List (String × String)) (vs : List String) (info : PngInfo)
    (h : tryJsonValues jsonParse textMap vs = some info) :
    ∃ p, info.positive = some p ∧ trimStr p ≠ "" := by
  induction vs with
  | nil => simp [tryJsonValues] at h
  | cons v vs ih =>
    simp only [tryJsonValues] at h
    split at h
    · split at h
      · split at h
        · rename_i hp
          injection h with h2
          subst h2
          exact parseFromJson_positiveOk _ _ _ hp
        · exact ih h
      · exact ih h
    · exact ih h

theorem pickFromTextMap_positiveOk (jsonParse : String → Option JsObj)
    (textMap : List (String × String)) (info : PngInfo)
    (h : pickFromTextMap jsonParse textMap = some info) :
    ∃ p, info.positive = some p ∧ trimStr p ≠ "" := by
  simp only [pickFromTextMap] at h
  split at h
  · exact parseA1111_positiveOk _ _ _ _ h
  · split at h
    · rename_i hloose
      injection h with h2
      subst h2
      exact tryLooseKeys_positiveOk _ _ _ _ hloose
    · split at h
      · rename_i hjson
        injection h with h2
        subst h2
        exact tryJsonValues_positiveOk _ _ _ _ hjson
      · split at h
        · exact parseFromFreeForm_positiveOk _ _ _ h
        · exact parseFromFreeForm_positiveOk _ _ _ h

/-- C2: every dialect parser — the A1111 block parser in both standard
and loose mode, the JSON-dialect parser, the free-form parser — and the
Metadata Format Parser `pickFromTextMap` itself return a record only
with a present, non-empty-after-trimming `positive` field. -/
theorem C2_positive_invariant :
    (∀ (raw : String) (all : Option (List (String × String))) (loose : Bool)
        (info : PngInfo), parseA1111ParametersBlock raw all loose = some info →
        ∃ p, info.positive = some p ∧ trimStr p ≠ "") ∧
      (∀ (obj : JsObj) (raw : List (String × String)) (info : PngInfo),
        parseFromJson obj raw = some info →
        ∃ p, info.positive = some p ∧ trimStr p ≠ "") ∧
      (∀ (s : String) (raw : List (String × String)) (info : PngInfo),
        parseFromFreeForm s raw = some info →
        ∃ p, info.positive = some p ∧ trimStr p ≠ "") ∧
      (∀ (jsonParse : String → Option JsObj) (textMap : List (String × String))
        (info : PngInfo), pickFromTextMap jsonParse textMap = some info →
        ∃ p, info.positive = some p ∧ trimStr p ≠ "") :=
  ⟨parseA1111_positiveOk, parseFromJson_positiveOk, parseFromFreeForm_positiveOk,
    pickFromTextMap_positiveOk⟩

/-- Witness for C2 at a concrete text map accepted by the standard
dialect. -/
theorem C2_positive_invariant_witness :
    ∃ p, ({ positive := some "a cat", raw := [("parameters", "a cat")] } : PngInfo).positive =
        some p ∧ trimStr p ≠ "" :=
  C2_positive_invariant.2.2.2 (fun _ => none) [("parameters", "a cat")]
    { positive := some "a cat", raw := [("parameters", "a cat")] } (by decide)

/- ===================== C1 ===================== -/

/-- Counterexample to C1 as stated: with a `parameters` keyword present
but its block parse yielding no positive field, `pickFromTextMap`
returns the not-found signal even though a later step (the loose
`description` parse) would succeed — the later steps are not attempted. -/
theorem C1_counterexample :
    pickFromTextMap (fun _ => none)
        [("parameters", ""), ("description", "a cat\nSteps: 5")] = none ∧
      (parseA1111ParametersBlock "a cat\nSteps: 5"
          (some [("parameters", ""), ("description", "a cat\nSteps: 5")]) true).isSome =
        true :=
  ⟨by decide, by decide⟩

/-- C1 (amended): acceptance still requires a non-empty trimmed positive
at every step (C2), but fallthrough is only partial: when a `parameters`
keyword is present (after lower-casing keys), `pickFromTextMap` returns
that single block-parse attempt's outcome directly — found or not —
without attempting the later steps.  When it is absent, the loose-variant
keys do fall through on failure (second conjunct: a failing `description`
value falls through to a successful `comment` value). -/
theorem C1_amended_resolution_order (jsonParse : String → Option JsObj)
    (textMap : List (String × String)) (v : String)
    (hv : getAssoc (lowerKeyMap textMap) "parameters" = some v) :
    pickFromTextMap jsonParse textMap = parseA1111ParametersBlock v (some textMap) false ∧
      (pickFromTextMap (fun _ => none)
          [("description", "\nNegative prompt: y"), ("comment", "a cat")]).map
        (fun i => i.positive) = some (some "a cat") := by
  refine ⟨?_, by decide⟩
  simp only [pickFromTextMap, hv]

/-- Witness for C1 (amended) at a one-key map. -/
theorem C1_amended_resolution_order_witness :
    pickFromTextMap (fun _ => none) [("parameters", "a cat")] =
      parseA1111ParametersBlock "a cat" (some [("parameters", "a cat")]) false :=
  (C1_amended_resolution_order (fun _ => none) [("parameters", "a cat")] "a cat"
    (by decide)).1

/- ===================== C8 ===================== -/

theorem indexOfZero_append (kw rest : List Nat) (h0 : 0 ∉ kw) :
    indexOfZero (kw ++ 0 :: rest) = some kw.length := by
  induction kw with
  | nil => simp [indexOfZero, List.findIdx?_cons]
  | cons k ks ih =>
    have hk : ¬(k = 0) := fun hh => h0 (hh ▸ List.mem_cons_self k ks)
    have hks : (0 : Nat) ∉ ks := fun hm => h0 (List.mem_cons_of_mem _ hm)
    have ih2 := ih hks
    simp only [indexOfZero] at ih2 ⊢
    rw [List.cons_append, List.findIdx?_cons]
    simp [hk, ih2]

theorem decodeChunk_ztxt (inflate : List Nat → Option (List Nat))
    (utf8 : List Nat → String) (out : List (String × List String)) (data : List Nat) :
    decodeChunk inflate utf8 out ⟨"zTXt", data⟩ =
      (match indexOfZero data with
       | some i =>
         if 0 < i ∧ i + 2 < data.length then
           match (if (data.get? (i + 1)).getD 0 = 0 then inflate (data.drop (i + 2))
                  else some (data.drop (i + 2))) with
           | some textBuf => pushText out (latin1 (data.take i)) (utf8 textBuf)
           | none => out
         else out
       | none => out) := by
  simp only [decodeChunk]
  rw [if_neg (by decide), if_pos (by decide)]

/-- C8 (amended): a syntactically well-formed zTXt chunk whose
compression-method byte is non-zero is *not* ignored: its payload is
left undecoded (no inflate call) and pushed verbatim through the UTF-8
decoding into the text map.  The chunk contributes no entry only when
the null separator is missing, the keyword is empty, or the chunk is too
short to hold a method byte and payload. -/
theorem C8_amended_ztxt_unknown_method (inflate : List Nat → Option (List Nat))
    (utf8 : List Nat → String) (kw payload : List Nat) (m : Nat)
    (hkw : kw ≠ []) (h0 : 0 ∉ kw) (hm : m ≠ 0) (hp : payload ≠ []) :
    parseAllPngTextChunks inflate utf8 [⟨"zTXt", kw ++ 0 :: m :: payload⟩] =
      [(latin1 kw, utf8 payload)] := by
  have hidx : indexOfZero (kw ++ 0 :: m :: payload) = some kw.length :=
    indexOfZero_append kw (m :: payload) h0
  have hget : (kw ++ 0 :: m :: payload).get? (kw.length + 1) = some m := by
    rw [List.get?_append_right (by omega)]
    simp
  have hdrop : (kw ++ 0 :: m :: payload).drop (kw.length + 2) = payload := by
    have := @List.drop_append Nat kw (0 :: m :: payload) 2
    simpa using this
  have htake : (kw ++ 0 :: m :: payload).take kw.length = kw := List.take_left kw _
  have hklen : 0 < kw.length := List.length_pos.mpr hkw
  have hplen : 0 < payload.length := List.length_pos.mpr hp
  have hlen : kw.length + 2 < (kw ++ 0 :: m :: payload).length := by
    simp only [List.length_append, List.length_cons]
    omega
  simp only [parseAllPngTextChunks, List.foldl, decodeChunk_ztxt, hidx]
  rw [if_pos ⟨hklen, hlen⟩, hget]
  rw [show (some m).getD 0 = m from rfl, if_neg hm]
  rw [hdrop, htake]
  simp [pushText, joinSep]

/-- Witness for C8 (amended): keyword `k`, method byte 1, payload `a`. -/
theorem C8_amended_ztxt_unknown_method_witness :
    parseAllPngTextChunks (fun _ => none) latin1 [⟨"zTXt", [107, 0, 1, 97]⟩] =
      [("k", "a")] :=
  C8_amended_ztxt_unknown_method (fun _ => none) latin1 [107] [97] 1
    (by decide) (by decide) (by decide) (by decide)

/-- Counterexample to C8 as stated: a zTXt chunk with compression method
1 still contributes an entry to the decoded text map (the raw payload),
rather than being ignored. -/
theorem C8_counterexample :
    parseAllPngTextChunks (fun _ => none) (fun _ => "") [⟨"zTXt", [107, 0, 1, 97]⟩] ≠ [] := by
  decide

/- ===================== C9 ===================== -/

theorem takeWhile_all (p : Char → Bool) (l : List Char) (h : ∀ x ∈ l, p x = true) :
    l.takeWhile p = l := by
  induction l with
  | nil => rfl
  | cons a as ih =>
    rw [List.takeWhile_cons, if_pos (h a (List.mem_cons_self _ _))]
    rw [ih (fun x hx => h x (List.mem_cons_of_mem _ hx))]

theorem findModelMatch_step (x : Char) (xs : List Char) (b : Bool)
    (h : tryModelAt b (x :: xs) = none) :
    findModelMatch (x :: xs) b = findModelMatch xs false := by
  rw [findModelMatch, h]

/-- Counterexample to C9 as stated: the prompt `"x\nModel: foo"` contains
a `Model: <value>` marker (case-insensitive substring), yet the extractor
produces no label, because the regex `(?:^|,\s*)Model:` requires the
marker at the string start or after a comma. -/
theorem C9_counterexample :
    ciSubstr "model:".data "x\nModel: foo".data = true ∧
      parseModelPromptLabel "x\nModel: foo" = none :=
  ⟨by decide, by decide⟩

/-- C9 (amended): the model-label extractor produces exactly one label —
the captured value run `[^,\n\r]+` cleaned by `cleanToken` — when the
`Model:` marker sits at the string start or after a comma (here after
the comma of a representative prompt, for every value not beginning with
whitespace and free of comma/CR/LF), and no label when the cleaned value
is empty or when no such marker exists. -/
theorem C9_amended_model_label (c : Char) (cs : List Char) (hc : isWsJS c = false)
    (hall : ∀ d ∈ c :: cs, isModelValCh d = true) :
    parseModelPromptLabel ⟨"a cat, Model: ".data ++ c :: cs⟩ =
        (if cleanToken ⟨c :: cs⟩ = "" then none else some (cleanToken ⟨c :: cs⟩)) ∧
      parseModelPromptLabel "a cat" = none := by
  refine ⟨?_, by decide⟩
  have hws : List.takeWhile isWsJS (' ' :: c :: cs) = [' '] := by
    have h1 : List.takeWhile isWsJS (' ' :: c :: cs) = ' ' :: List.takeWhile isWsJS (c :: cs) :=
      rfl
    rw [h1, List.takeWhile_cons, if_neg (by simp [hc])]
  have hcap : modelCapture (' ' :: c :: cs) = some (c :: cs) := by
    simp only [modelCapture, hws]
    have hdrop : (' ' :: c :: cs).drop ([' '] : List Char).length = c :: cs := rfl
    rw [hdrop, takeWhile_all isModelValCh (c :: cs) hall]
    simp
  have hfind : findModelMatch ("a cat, Model: ".data ++ c :: cs) true = some (c :: cs) := by
    have hdata : "a cat, Model: ".data ++ c :: cs =
        'a' :: ' ' :: 'c' :: 'a' :: 't' :: ',' :: ' ' :: 'M' :: 'o' :: 'd' :: 'e' :: 'l' ::
          ':' :: ' ' :: c :: cs := rfl
    rw [hdata]
    rw [findModelMatch_step _ _ _ (by rfl)]
    rw [findModelMatch_step _ _ _ (by rfl)]
    rw [findModelMatch_step _ _ _ (by rfl)]
    rw [findModelMatch_step _ _ _ (by rfl)]
    rw [findModelMatch_step _ _ _ (by rfl)]
    rw [findModelMatch]
    have htry : tryModelAt false
        (',' :: ' ' :: 'M' :: 'o' :: 'd' :: 'e' :: 'l' :: ':' :: ' ' :: c :: cs) =
        modelCapture (' ' :: c :: cs) := rfl
    rw [htry, hcap]
  have hstr : (⟨"a cat, Model: ".data ++ c :: cs⟩ : String).data =
      "a cat, Model: ".data ++ c :: cs := rfl
  simp only [parseModelPromptLabel, hstr, hfind]

/-- Witness for C9 (amended) at the specification's example value. -/
theorem C9_amended_model_label_witness :
    parseModelPromptLabel "a cat, Model: foo.safetensors" = some "foosafetensors" :=
  ((C9_amended_model_label 'f' "oo.safetensors".data (by decide) (by decide)).1).trans
    (by decide)
